import Mathlib

/-
Verification development for the QUEKNO glink-chain builder and circuit
assembler (lib/graph.py, lib/graph_data.py, lib/permutation.py, lib/glink.py,
lib/utils.py, lib/quekno.py).

Embedding conventions:
- A Node is a natural number; the null node / null edge of graph_data.py only
  occurs inside the parallel-permutation generator and is modelled there by
  Option.
- An Edge is an unordered pair of naturals, stored normalised as (min, max)
  by nedge.  rustworkx PyGraph objects are created with multigraph = False,
  under which adding a duplicate edge replaces the stored payload instead of
  creating a parallel edge; a Finset of normalised pairs is exactly that
  semantics.  Where the Python code iterates a set or the edge list of a
  PyGraph in an unspecified (but per-run deterministic) order, the embedding
  iterates the canonical sorted order; all properties proved here are
  insensitive to that order.
- Randomness (random.choice / shuffle / sample / gauss / choices / randint)
  is an explicit input: an RStream record of value streams together with a
  cursor that is threaded through every drawing operation.  Distributions
  are abstracted; every theorem quantifies over all streams.
- Loops of the source without a static bound (the chain-growth loop, the
  retry loop of next_glink, the parallel-permutation selection loop) are
  modelled with explicit fuel and return Option; none models the run not
  having terminated within the fuel.
- Real-valued configuration constants (qbg_ratio, RAND_EDGES_VAR) are
  modelled as exact rationals; Python evaluates the corresponding
  expressions in floating point, which none of the claims below depend on.
- The subgraph-isomorphism test of is_strong_glink is rustworkx's bounded
  VF2 matcher (an external library); it is modelled as an explicit boolean
  matcher argument, with a concrete brute-force monomorphism search
  (embedsInto) used to instantiate it on the small witness inputs.
-/

/-- Normalised undirected edge: the unordered pair {a, b} stored as
(min a b, max a b). -/
def nedge (a b : ℕ) : ℕ × ℕ :=
  if a ≤ b then (a, b) else (b, a)

/-- Graph of lib/graph.py: a rustworkx PyGraph (multigraph = False) holding
integer-labelled nodes, viewed as its node set and its set of normalised
undirected edges. -/
structure Graph where
  nodes : Finset ℕ
  edges : Finset (ℕ × ℕ)
deriving DecidableEq

/-- Graph.has_node. -/
def Graph.hasNode (g : Graph) (u : ℕ) : Bool :=
  decide (u ∈ g.nodes)

/-- Graph.has_edge: false unless both endpoints are nodes, then an edge
lookup. -/
def Graph.hasEdge (g : Graph) (u v : ℕ) : Bool :=
  g.hasNode u && g.hasNode v && decide (nedge u v ∈ g.edges)

/-- Graph.neighbours of a node. -/
def Graph.neighbours (g : Graph) (u : ℕ) : Finset ℕ :=
  g.nodes.filter (fun v => nedge u v ∈ g.edges)

/-- Graph.add_node. -/
def Graph.addNode (g : Graph) (u : ℕ) : Graph :=
  ⟨insert u g.nodes, g.edges⟩

/-- Graph.remove_node: rustworkx removes the node together with its incident
edges. -/
def Graph.removeNode (g : Graph) (u : ℕ) : Graph :=
  ⟨g.nodes.erase u, g.edges.filter (fun e => e.1 ≠ u ∧ e.2 ≠ u)⟩

/-- Graph.add_edges (multigraph = False: adding an existing edge replaces its
payload, i.e. set union). -/
def Graph.addEdges (g : Graph) (es : Finset (ℕ × ℕ)) : Graph :=
  ⟨g.nodes, g.edges ∪ es⟩

/-- Graph.remove_edges. -/
def Graph.removeEdges (g : Graph) (es : Finset (ℕ × ℕ)) : Graph :=
  ⟨g.nodes, g.edges \ es⟩

/-- Graph.union: node-set union and edge-set union (add_nodes of the missing
nodes followed by add_edges of the other graph's edges). -/
def Graph.union (g h : Graph) : Graph :=
  ⟨g.nodes ∪ h.nodes, g.edges ∪ h.edges⟩

/-- Graph.num_edges. -/
def Graph.numEdges (g : Graph) : ℕ :=
  g.edges.card

/-- Graph.num_nodes. -/
def Graph.numNodes (g : Graph) : ℕ :=
  g.nodes.card

/-- The node list of the graph.  For every graph the core constructs through
from_edges, rustworkx's insertion order is the ascending label order, so the
canonical list is the ascending enumeration of the node set. -/
def Graph.nodeList (g : Graph) : List ℕ :=
  (List.range (g.nodes.sup id + 1)).filter (fun x => x ∈ g.nodes)

/-- The edge list of the graph in a canonical (lexicographically ascending)
order.  Every use of the edge list in the core either shuffles it, samples
from it or treats it as a set, so a canonical enumeration is a faithful
stand-in for rustworkx's insertion order. -/
def Graph.edgeList (g : Graph) : List (ℕ × ℕ) :=
  ((List.range (g.edges.sup (fun e => max e.1 e.2) + 1)).flatMap
    (fun a => (List.range (g.edges.sup (fun e => max e.1 e.2) + 1)).map
      (fun b => (a, b)))).filter (fun e => e ∈ g.edges)

/-- The body of Graph.permute once at least one endpoint is known to be
present: temporarily add absent endpoints, exchange the two neighbourhoods,
then delete the temporarily added nodes again (which also deletes their
incident edges). -/
def Graph.permuteCore (g : Graph) (u v : ℕ) : Graph :=
  let uExt := !g.hasNode u
  let g1 := if uExt then g.addNode u else g
  let vExt := !g1.hasNode v
  let g2 := if vExt then g1.addNode v else g1
  let srcN := (g2.neighbours u).erase v
  let dstN := (g2.neighbours v).erase u
  let g3 := g2.removeEdges
    (srcN.image (fun n => nedge u n) ∪ dstN.image (fun n => nedge v n))
  let g4 := g3.addEdges
    (srcN.image (fun n => nedge v n) ∪ dstN.image (fun n => nedge u n))
  let g5 := if uExt then g4.removeNode u else g4
  if vExt then g5.removeNode v else g5

/-- Graph.permute as a value: the graph that the call produces (the returned
copy when inplace is False, the final state of the receiver when inplace is
True — both are the same graph value).  If neither endpoint is in the graph
the graph is returned unchanged (a copy). -/
def Graph.permute (g : Graph) (u v : ℕ) : Graph :=
  if !(g.hasNode u || g.hasNode v) then g else g.permuteCore u v

/-- One call of Graph.permute(src, dst, inplace) viewed as a state
transformer: the pair is (the receiver after the call, the returned value).
With inplace = False every mutation acts on this = self.copy(), so the
receiver is returned unchanged; with inplace = True the mutations act on the
receiver itself and None is returned. -/
def Graph.permuteCall (g : Graph) (u v : ℕ) (inplace : Bool) :
    Graph × Option Graph :=
  if !(g.hasNode u || g.hasNode v) then
    (g, if inplace then none else some g)
  else if inplace then
    (g.permuteCore u v, none)
  else
    (g, some (g.permuteCore u v))

/-- Well-formedness invariant of the graphs the core constructs: every stored
edge is normalised with two distinct endpoints (simple, no self-loops) and
its endpoints are nodes. -/
structure Graph.WF (g : Graph) : Prop where
  norm : ∀ e ∈ g.edges, e.1 < e.2
  endpoints : ∀ e ∈ g.edges, e.1 ∈ g.nodes ∧ e.2 ∈ g.nodes

/-- Mode of a Permutation of lib/permutation.py: "map" applies all
substitutions in parallel, "swap" applies transpositions sequentially. -/
inductive PMode where
  | map
  | swap
deriving DecidableEq

/-- Permutation of lib/permutation.py: an ordered sequence of (src, dst)
pairs together with a mode.  The pairs are kept in the stored orientation
because application reads them as ordered pairs. -/
structure Permutation where
  mode : PMode
  items : List (ℕ × ℕ)
deriving DecidableEq

/-- Permutation.identity: the empty map-mode permutation. -/
def Permutation.identity : Permutation :=
  ⟨.map, []⟩

/-- Lookup in the dict built from an item list (a later binding of the same
key overwrites an earlier one, so the last occurrence wins). -/
def mapLookup (items : List (ℕ × ℕ)) (x : ℕ) : Option ℕ :=
  (items.reverse.find? (fun p => p.1 == x)).map (·.2)

/-- Permutation.__apply_map: simultaneous substitution — every position of
the original sequence is read from the original and rewritten through the
dict of the items. -/
def Permutation.applyMap (p : Permutation) (original : List ℕ) : List ℕ :=
  original.map (fun x => (mapLookup p.items x).getD x)

/-- Lookup of the position dict sigma = \x7bnode: original.index(node)\x7d of
Permutation.__apply_swap: the first index of the value in the original list,
and a KeyError (none) when the value does not occur. -/
def posOf (l : List ℕ) (x : ℕ) : Option ℕ :=
  if x ∈ l then some (l.indexOf x) else none

/-- Simultaneous exchange of the entries at positions i and j (both sides of
the Python tuple assignment are read before either is written). -/
def swapAt (l : List ℕ) (i j : ℕ) : List ℕ :=
  (l.set i (l.getD j 0)).set j (l.getD i 0)

/-- Permutation.__apply_swap: the position index sigma is built once from the
original sequence; every transposition then exchanges the entries at the two
fixed positions sigma[src] and sigma[dst] of the current sequence.  A
transposition naming a node absent from the original raises (none). -/
def Permutation.applySwap (p : Permutation) (original : List ℕ) :
    Option (List ℕ) :=
  p.items.foldlM
    (fun cur sd => do
      let i ← posOf original sd.1
      let j ← posOf original sd.2
      pure (swapAt cur i j))
    original

/-- Permutation.apply: dispatch on the mode. -/
def Permutation.apply (p : Permutation) (original : List ℕ) :
    Option (List ℕ) :=
  match p.mode with
  | .map => some (p.applyMap original)
  | .swap => p.applySwap original

/-- Length of a permutation (its number of transpositions). -/
def Permutation.len (p : Permutation) : ℕ :=
  p.items.length

/-- is_disjoint of lib/utils.py on a collection that may contain the null
edge: flatten the endpoints of the non-null edges and test for duplicates
(len(nodes) == len(set(nodes))). -/
def is_disjoint (edges : List (Option (ℕ × ℕ))) : Bool :=
  let nodes := edges.flatMap
    (fun e => match e with | none => [] | some pr => [pr.1, pr.2])
  nodes.length == nodes.dedup.length

/-- The permuted graph of is_strong_glink: a copy of the candidate subgraph
with each transposition of the permutation applied in place in order. -/
def permGraphOf (next_subgraph : Graph) (items : List (ℕ × ℕ)) : Graph :=
  items.foldl (fun g sd => g.permute sd.1 sd.2) next_subgraph

/-- is_strong_glink of lib/utils.py.  The subgraph-isomorphism test is
rustworkx's VF2 matcher with call_limit = 10000 (an external library, with
budget exhaustion reported as not-found); it enters the embedding as the
boolean matcher argument. -/
def is_strong_glink (matcher : Graph → Graph → Bool) (archgraph : Graph)
    (prev_subgraph next_subgraph : Graph) (perm : Permutation) : Bool :=
  let permGraph := permGraphOf next_subgraph perm.items
  if permGraph = next_subgraph then false
  else matcher archgraph (prev_subgraph.union permGraph)

/-- All injective assignments of the domain list to elements of the codomain
list, as association lists. -/
def injectionsFrom (dom : List ℕ) (cod : List ℕ) : List (List (ℕ × ℕ)) :=
  match dom with
  | [] => [[]]
  | d :: ds =>
    cod.flatMap (fun c =>
      (injectionsFrom ds (cod.erase c)).map (fun rest => (d, c) :: rest))

/-- Application of an association-list assignment. -/
def applyInj (f : List (ℕ × ℕ)) (x : ℕ) : ℕ :=
  ((f.find? (fun p => p.1 == x)).map (·.2)).getD x

/-- Existence of a non-induced subgraph embedding of small into big: a
concrete, exhaustive monomorphism search used to instantiate the abstract
VF2 matcher on the small witness inputs (on which the call budget of 10000
is never reached). -/
def embedsInto (big small : Graph) : Bool :=
  (injectionsFrom small.nodeList big.nodeList).any (fun f =>
    decide (∀ e ∈ small.edges, big.hasEdge (applyInj f e.1) (applyInj f e.2)))

/-- Insertion of one edge into the edge store of a PyGraph created with
multigraph = False: when an edge with the same unordered endpoint pair is
already stored, the insertion only replaces its payload. -/
def addEdgeNoMulti (stored : List (ℕ × ℕ)) (e : ℕ × ℕ) : List (ℕ × ℕ) :=
  if stored.any (fun f => nedge f.1 f.2 == nedge e.1 e.2) then stored
  else stored ++ [e]

/-- PyGraph.has_parallel_edges on an edge store: two stored edges with the
same unordered endpoint pair. -/
def hasParallelEdges (stored : List (ℕ × ℕ)) : Bool :=
  !((stored.map (fun e => nedge e.1 e.2)).dedup.length
      == (stored.map (fun e => nedge e.1 e.2)).length)

/-- Graph.from_edges: relabel the endpoint labels seen with their rank in
the sorted set of labels, build the PyGraph (multigraph = False) from the
relabelled edges, and run the constructor check for parallel edges. -/
def from_edges (edges : List (ℕ × ℕ)) : Except String Graph :=
  let old_nodes :=
    List.insertionSort (· ≤ ·) ((edges.flatMap (fun e => [e.1, e.2])).dedup)
  let new_edges := edges.map
    (fun e => (old_nodes.indexOf e.1, old_nodes.indexOf e.2))
  let stored := new_edges.foldl addEdgeNoMulti []
  if hasParallelEdges stored then .error "graph contains parallel edges"
  else .ok ⟨Finset.range old_nodes.length,
    (stored.map (fun e => nedge e.1 e.2)).toFinset⟩

/-- Exchange of the two labels u and v on a node. -/
def pswapNode (u v x : ℕ) : ℕ :=
  if x = u then v else if x = v then u else x

/-- Exchange of the two labels u and v on an edge, renormalised. -/
def pswapEdge (u v : ℕ) (e : ℕ × ℕ) : ℕ × ℕ :=
  nedge (pswapNode u v e.1) (pswapNode u v e.2)

theorem nedge_comm (a b : ℕ) : nedge a b = nedge b a := by
  unfold nedge
  split <;> split <;> first | rfl | exact Prod.ext (by omega) (by omega)

theorem nedge_eq_nedge_iff {a b c d : ℕ} :
    nedge a b = nedge c d ↔ (a = c ∧ b = d) ∨ (a = d ∧ b = c) := by
  unfold nedge
  split <;> split <;> simp [Prod.ext_iff] <;> omega

theorem nedge_fst_lt_snd {a b : ℕ} (h : a ≠ b) :
    (nedge a b).1 < (nedge a b).2 := by
  unfold nedge; split <;> simp <;> omega

theorem nedge_self_eq {a b : ℕ} (h : a < b) : nedge a b = (a, b) := by
  unfold nedge; split <;> [rfl; omega]

theorem pswapNode_invol (u v x : ℕ) :
    pswapNode u v (pswapNode u v x) = x := by
  unfold pswapNode; split_ifs <;> omega

theorem pswapNode_mem {s : Finset ℕ} (hu : u ∈ s) (hv : v ∈ s) (hx : x ∈ s) :
    pswapNode u v x ∈ s := by
  unfold pswapNode; split_ifs <;> assumption

theorem pswapEdge_invol (u v : ℕ) (e : ℕ × ℕ) :
    pswapEdge u v (pswapEdge u v e) = nedge e.1 e.2 := by
  unfold pswapEdge
  by_cases h : pswapNode u v e.1 ≤ pswapNode u v e.2
  · rw [show nedge (pswapNode u v e.1) (pswapNode u v e.2) =
        (pswapNode u v e.1, pswapNode u v e.2) from if_pos h]
    simp [pswapNode_invol]
  · rw [show nedge (pswapNode u v e.1) (pswapNode u v e.2) =
        (pswapNode u v e.2, pswapNode u v e.1) from if_neg h]
    simp only [pswapNode_invol]
    exact nedge_comm _ _

theorem Graph.WF.no_selfloop {g : Graph} (hwf : g.WF) (u : ℕ) :
    nedge u u ∉ g.edges := by
  intro h
  have := hwf.norm _ h
  simp [nedge] at this

theorem mem_neighbours {g : Graph} (hwf : g.WF) {u n : ℕ} :
    n ∈ g.neighbours u ↔ nedge u n ∈ g.edges := by
  unfold Graph.neighbours
  simp only [Finset.mem_filter]
  constructor
  · rintro ⟨-, h⟩; exact h
  · intro h
    refine ⟨?_, h⟩
    have hep := hwf.endpoints _ h
    unfold nedge at hep
    split at hep <;> [exact hep.2; exact hep.1]

theorem permuteCore_of_mem {g : Graph} {u v : ℕ} (hu : u ∈ g.nodes)
    (hv : v ∈ g.nodes) :
    g.permuteCore u v =
      ⟨g.nodes,
        (g.edges \
            (((g.neighbours u).erase v).image (fun n => nedge u n) ∪
              ((g.neighbours v).erase u).image (fun n => nedge v n))) ∪
          (((g.neighbours u).erase v).image (fun n => nedge v n) ∪
            ((g.neighbours v).erase u).image (fun n => nedge u n))⟩ := by
  unfold Graph.permuteCore Graph.addEdges Graph.removeEdges Graph.hasNode
  simp [hu, hv]

theorem mem_permuteCore_edges {g : Graph} (hwf : g.WF) {u v : ℕ}
    (hu : u ∈ g.nodes) (hv : v ∈ g.nodes) (e : ℕ × ℕ) :
    e ∈ (g.permuteCore u v).edges ↔
      e.1 < e.2 ∧ pswapEdge u v e ∈ g.edges := by
  obtain ⟨a, b⟩ := e
  rw [permuteCore_of_mem hu hv]
  simp only [Finset.mem_union, Finset.mem_sdiff, Finset.mem_image,
    Finset.mem_erase]
  constructor
  · rintro (⟨hE, hR⟩ | ⟨n, ⟨hnv, hnN⟩, hne⟩ | ⟨n, ⟨hnu, hnN⟩, hne⟩)
    · push_neg at hR
      obtain ⟨hR1, hR2⟩ := hR
      have hab := hwf.norm _ hE
      simp only at hab
      refine ⟨hab, ?_⟩
      by_cases hau : a = u
      · by_cases hbv : b = v
        · have hfix : pswapEdge u v (a, b) = (a, b) := by
            unfold pswapEdge
            rw [show pswapNode u v (a, b).1 = b by
                  unfold pswapNode; simp only; split_ifs <;> omega,
                show pswapNode u v (a, b).2 = a by
                  unfold pswapNode; simp only; split_ifs <;> omega]
            rw [nedge_comm, nedge_self_eq hab]
          rw [hfix]; exact hE
        · exfalso
          refine hR1 b ⟨hbv, (mem_neighbours hwf).2 ?_⟩ ?_
          · rw [← hau, nedge_self_eq hab]; exact hE
          · rw [← hau, nedge_self_eq hab]
      · by_cases hav : a = v
        · by_cases hbu : b = u
          · have hfix : pswapEdge u v (a, b) = (a, b) := by
              unfold pswapEdge
              rw [show pswapNode u v (a, b).1 = b by
                    unfold pswapNode; simp only; split_ifs <;> omega,
                  show pswapNode u v (a, b).2 = a by
                    unfold pswapNode; simp only; split_ifs <;> omega]
              rw [nedge_comm, nedge_self_eq hab]
            rw [hfix]; exact hE
          · exfalso
            refine hR2 b ⟨hbu, (mem_neighbours hwf).2 ?_⟩ ?_
            · rw [← hav, nedge_self_eq hab]; exact hE
            · rw [← hav, nedge_self_eq hab]
        · by_cases hbu : b = u
          · exfalso
            refine hR1 a ⟨fun h => hav h, (mem_neighbours hwf).2 ?_⟩ ?_
            · rw [← hbu, nedge_comm, nedge_self_eq hab]; exact hE
            · rw [← hbu, nedge_comm, nedge_self_eq hab]
          · by_cases hbv : b = v
            · exfalso
              refine hR2 a ⟨fun h => hau h, (mem_neighbours hwf).2 ?_⟩ ?_
              · rw [← hbv, nedge_comm, nedge_self_eq hab]; exact hE
              · rw [← hbv, nedge_comm, nedge_self_eq hab]
            · have hfix : pswapEdge u v (a, b) = (a, b) := by
                unfold pswapEdge
                rw [show pswapNode u v (a, b).1 = a by
                      unfold pswapNode; simp only; split_ifs <;> omega,
                    show pswapNode u v (a, b).2 = b by
                      unfold pswapNode; simp only; split_ifs <;> omega]
                exact nedge_self_eq hab
              rw [hfix]; exact hE
    · -- an edge added from v to a former neighbour n of u
      rw [mem_neighbours hwf] at hnN
      have hnu : n ≠ u := fun h => hwf.no_selfloop u (h ▸ hnN)
      have hvn : v ≠ n := fun h => hnv h.symm
      constructor
      · have h := nedge_fst_lt_snd hvn
        rw [hne] at h
        simpa using h
      · have hback : pswapEdge u v (nedge v n) = nedge u n := by
          unfold pswapEdge
          have h1 : pswapNode u v v = u := by
            unfold pswapNode; split_ifs <;> omega
          have h2 : pswapNode u v n = n := by
            unfold pswapNode; split_ifs <;> omega
          by_cases hle : v ≤ n
          · rw [show nedge v n = (v, n) from if_pos hle]
            simp only [h1, h2]
          · rw [show nedge v n = (n, v) from if_neg hle]
            simp only [h1, h2]
            exact nedge_comm _ _
        rw [← hne, hback]
        exact hnN
    · -- an edge added from u to a former neighbour n of v
      rw [mem_neighbours hwf] at hnN
      have hnv : n ≠ v := fun h => hwf.no_selfloop v (h ▸ hnN)
      have hun : u ≠ n := fun h => hnu h.symm
      constructor
      · have h := nedge_fst_lt_snd hun
        rw [hne] at h
        simpa using h
      · have hback : pswapEdge u v (nedge u n) = nedge v n := by
          unfold pswapEdge
          have h1 : pswapNode u v u = v := by
            unfold pswapNode; split_ifs <;> omega
          have h2 : pswapNode u v n = n := by
            unfold pswapNode; split_ifs <;> omega
          by_cases hle : u ≤ n
          · rw [show nedge u n = (u, n) from if_pos hle]
            simp only [h1, h2]
          · rw [show nedge u n = (n, u) from if_neg hle]
            simp only [h1, h2]
            exact nedge_comm _ _
        rw [← hne, hback]
        exact hnN
  · rintro ⟨hab, hsw⟩
    by_cases hau : a = u
    · by_cases hbv : b = v
      · left
        have hfix : pswapEdge u v (a, b) = (a, b) := by
          unfold pswapEdge
          rw [show pswapNode u v (a, b).1 = b by
                unfold pswapNode; simp only; split_ifs <;> omega,
              show pswapNode u v (a, b).2 = a by
                unfold pswapNode; simp only; split_ifs <;> omega]
          rw [nedge_comm, nedge_self_eq hab]
        rw [hfix] at hsw
        refine ⟨hsw, ?_⟩
        rintro (⟨n, ⟨hn1, -⟩, hne⟩ | ⟨n, ⟨hn1, -⟩, hne⟩) <;>
          rw [← nedge_self_eq hab] at hne <;>
          rcases nedge_eq_nedge_iff.1 hne with ⟨h1, h2⟩ | ⟨h1, h2⟩ <;> omega
      · right; right
        have hswv : nedge v b ∈ g.edges := by
          have : pswapEdge u v (a, b) = nedge v b := by
            unfold pswapEdge
            rw [show pswapNode u v (a, b).1 = v by
                  unfold pswapNode; simp only; split_ifs <;> omega,
                show pswapNode u v (a, b).2 = b by
                  unfold pswapNode; simp only; split_ifs <;> omega]
          rwa [this] at hsw
        refine ⟨b, ⟨by omega, (mem_neighbours hwf).2 hswv⟩, ?_⟩
        rw [← hau, nedge_self_eq hab]
    · by_cases hav : a = v
      · by_cases hbu : b = u
        · left
          have hfix : pswapEdge u v (a, b) = (a, b) := by
            unfold pswapEdge
            rw [show pswapNode u v (a, b).1 = b by
                  unfold pswapNode; simp only; split_ifs <;> omega,
                show pswapNode u v (a, b).2 = a by
                  unfold pswapNode; simp only; split_ifs <;> omega]
            rw [nedge_comm, nedge_self_eq hab]
          rw [hfix] at hsw
          refine ⟨hsw, ?_⟩
          rintro (⟨n, ⟨hn1, -⟩, hne⟩ | ⟨n, ⟨hn1, -⟩, hne⟩) <;>
          rw [← nedge_self_eq hab] at hne <;>
            rcases nedge_eq_nedge_iff.1 hne with ⟨h1, h2⟩ | ⟨h1, h2⟩ <;> omega
        · right; left
          have hswu : nedge u b ∈ g.edges := by
            have : pswapEdge u v (a, b) = nedge u b := by
              unfold pswapEdge
              rw [show pswapNode u v (a, b).1 = u by
                    unfold pswapNode; simp only; split_ifs <;> omega,
                  show pswapNode u v (a, b).2 = b by
                    unfold pswapNode; simp only; split_ifs <;> omega]
            rwa [this] at hsw
          refine ⟨b, ⟨by omega, (mem_neighbours hwf).2 hswu⟩, ?_⟩
          rw [← hav, nedge_self_eq hab]
      · by_cases hbu : b = u
        · right; right
          have hswv : nedge v a ∈ g.edges := by
            have : pswapEdge u v (a, b) = nedge v a := by
              unfold pswapEdge
              rw [show pswapNode u v (a, b).1 = a by
                    unfold pswapNode; simp only; split_ifs <;> omega,
                  show pswapNode u v (a, b).2 = v by
                    unfold pswapNode; simp only; split_ifs <;> omega]
              exact nedge_comm _ _
            rwa [this] at hsw
          refine ⟨a, ⟨by omega, (mem_neighbours hwf).2 hswv⟩, ?_⟩
          rw [← hbu, nedge_comm, nedge_self_eq hab]
        · by_cases hbv : b = v
          · right; left
            have hswu : nedge u a ∈ g.edges := by
              have : pswapEdge u v (a, b) = nedge u a := by
                unfold pswapEdge
                rw [show pswapNode u v (a, b).1 = a by
                      unfold pswapNode; simp only; split_ifs <;> omega,
                    show pswapNode u v (a, b).2 = u by
                      unfold pswapNode; simp only; split_ifs <;> omega]
                exact nedge_comm _ _
              rwa [this] at hsw
            refine ⟨a, ⟨by omega, (mem_neighbours hwf).2 hswu⟩, ?_⟩
            rw [← hbv, nedge_comm, nedge_self_eq hab]
          · left
            have hfix : pswapEdge u v (a, b) = (a, b) := by
              unfold pswapEdge
              rw [show pswapNode u v (a, b).1 = a by
                    unfold pswapNode; simp only; split_ifs <;> omega,
                  show pswapNode u v (a, b).2 = b by
                    unfold pswapNode; simp only; split_ifs <;> omega]
              exact nedge_self_eq hab
            rw [hfix] at hsw
            refine ⟨hsw, ?_⟩
            rintro (⟨n, ⟨hn1, -⟩, hne⟩ | ⟨n, ⟨hn1, -⟩, hne⟩) <;>
          rw [← nedge_self_eq hab] at hne <;>
              rcases nedge_eq_nedge_iff.1 hne with ⟨h1, h2⟩ | ⟨h1, h2⟩ <;> omega

theorem Graph.eq_of {g h : Graph} (hn : g.nodes = h.nodes)
    (he : g.edges = h.edges) : g = h := by
  cases g; cases h; simp_all

theorem permute_of_mem {g : Graph} {u v : ℕ} (hu : u ∈ g.nodes) :
    g.permute u v = g.permuteCore u v := by
  unfold Graph.permute Graph.hasNode
  simp [hu]

theorem permuteCore_nodes {g : Graph} {u v : ℕ} (hu : u ∈ g.nodes)
    (hv : v ∈ g.nodes) : (g.permuteCore u v).nodes = g.nodes := by
  rw [permuteCore_of_mem hu hv]

theorem nedge_comps (a b : ℕ) :
    ((nedge a b).1 = a ∧ (nedge a b).2 = b) ∨
      ((nedge a b).1 = b ∧ (nedge a b).2 = a) := by
  unfold nedge; split <;> simp

theorem permuteCore_wf {g : Graph} (hwf : g.WF) {u v : ℕ}
    (hu : u ∈ g.nodes) (hv : v ∈ g.nodes) : (g.permuteCore u v).WF := by
  constructor
  · intro e he
    exact ((mem_permuteCore_edges hwf hu hv e).1 he).1
  · intro e he
    obtain ⟨-, hsw⟩ := (mem_permuteCore_edges hwf hu hv e).1 he
    have hep := hwf.endpoints _ hsw
    have hcomps := nedge_comps (pswapNode u v e.1) (pswapNode u v e.2)
    rw [permuteCore_nodes hu hv]
    have h1 : pswapNode u v e.1 ∈ g.nodes := by
      rcases hcomps with ⟨ha, -⟩ | ⟨-, hb⟩
      · rw [← ha]; exact hep.1
      · rw [← hb]; exact hep.2
    have h2 : pswapNode u v e.2 ∈ g.nodes := by
      rcases hcomps with ⟨-, hb⟩ | ⟨ha, -⟩
      · rw [← hb]; exact hep.2
      · rw [← ha]; exact hep.1
    constructor
    · rw [← pswapNode_invol u v e.1]; exact pswapNode_mem hu hv h1
    · rw [← pswapNode_invol u v e.2]; exact pswapNode_mem hu hv h2

/-- C7 (amended): permuting the same node pair twice restores the graph
whenever the two nodes are both present in the graph or both absent from
it.  (When exactly one is present the first call already deletes the present
node's incident edges, see the counterexample.) -/
theorem c7_permute_permute_eq (g : Graph) (hwf : g.WF) (u v : ℕ)
    (h : (u ∈ g.nodes ∧ v ∈ g.nodes) ∨ (u ∉ g.nodes ∧ v ∉ g.nodes)) :
    (g.permute u v).permute u v = g := by
  rcases h with ⟨hu, hv⟩ | ⟨hu, hv⟩
  · have hu1 : u ∈ (g.permuteCore u v).nodes := by
      rw [permuteCore_nodes hu hv]; exact hu
    have hv1 : v ∈ (g.permuteCore u v).nodes := by
      rw [permuteCore_nodes hu hv]; exact hv
    rw [permute_of_mem hu, permute_of_mem hu1]
    apply Graph.eq_of
    · rw [permuteCore_nodes hu1 hv1, permuteCore_nodes hu hv]
    · apply Finset.ext
      intro e
      rw [mem_permuteCore_edges (permuteCore_wf hwf hu hv) hu1 hv1,
        mem_permuteCore_edges hwf hu hv]
      constructor
      · rintro ⟨h1, -, h3⟩
        rw [pswapEdge_invol, nedge_self_eq h1, Prod.mk.eta] at h3
        exact h3
      · intro he
        have h1 := hwf.norm _ he
        refine ⟨h1, ?_, ?_⟩
        · apply nedge_fst_lt_snd
          intro hc
          have : e.1 = e.2 := by
            rw [← pswapNode_invol u v e.1, hc, pswapNode_invol]
          omega
        · rw [pswapEdge_invol, nedge_self_eq h1, Prod.mk.eta]
          exact he
  · have habs : (!(g.hasNode u || g.hasNode v)) = true := by
      unfold Graph.hasNode
      simp [hu, hv]
    unfold Graph.permute
    rw [habs]
    simp only [if_true]
    rw [habs]
    simp

/-- Concrete graph with nodes 0, 1 and the single edge 0-1, used in several
counterexamples and witnesses. -/
def g01 : Graph :=
  ⟨{0, 1}, {(0, 1)}⟩

/-- C7, counterexample to the claim as stated: permuting with one endpoint
absent from the graph is not an involution — permuting 0 and 5 on the graph
0-1 twice deletes the edge, because the first call hands 0's neighbourhood
to the temporarily added node 5 and then removes 5 together with those
edges. -/
theorem c7_counterexample :
    (g01.permute 0 5).permute 0 5 ≠ g01 ∧
      (g01.permute 0 5).permute 0 5 = ⟨{0, 1}, ∅⟩ := by
  decide

/-- C7 witness: the amended involution evaluated on the concrete graph 0-1
with both endpoints present. -/
theorem c7_witness : (g01.permute 0 1).permute 0 1 = g01 :=
  c7_permute_permute_eq g01 ⟨by decide, by decide⟩ 0 1
    (Or.inl ⟨by decide, by decide⟩)

/-- C10: a permute call with inplace = False leaves the receiver unchanged
(the exchange acts on a fresh copy), and when neither node is present the
returned value is just a copy of the receiver. -/
theorem c10_permute_frame (g : Graph) (u v : ℕ) :
    (g.permuteCall u v false).1 = g ∧
      (g.hasNode u = false → g.hasNode v = false →
        (g.permuteCall u v false).2 = some g) := by
  constructor
  · unfold Graph.permuteCall
    split <;> rfl
  · intro h1 h2
    unfold Graph.permuteCall
    simp [h1, h2]

/-- C10 witness: the frame property evaluated on the concrete graph 0-1 with
both permuted nodes absent. -/
theorem c10_witness :
    (g01.permuteCall 7 8 false).1 = g01 ∧
      (g01.permuteCall 7 8 false).2 = some g01 :=
  ⟨(c10_permute_frame g01 7 8).1,
    (c10_permute_frame g01 7 8).2 (by decide) (by decide)⟩

/-- C4: is_strong_glink returns true exactly when the permuted image of the
candidate subgraph differs from the subgraph as a graph and the matcher
(rustworkx's budget-bounded VF2 search for a non-induced embedding, with
budget exhaustion reported as not-found) accepts the union of the previous
subgraph and the permuted image against the architecture graph. -/
theorem c4_is_strong_glink_iff (matcher : Graph → Graph → Bool)
    (ag prev next : Graph) (perm : Permutation) :
    is_strong_glink matcher ag prev next perm = true ↔
      (permGraphOf next perm.items ≠ next ∧
        matcher ag (prev.union (permGraphOf next perm.items)) = true) := by
  unfold is_strong_glink
  by_cases h : permGraphOf next perm.items = next <;> simp [h]

theorem set_getElem_self_eq (l : List ℕ) (i : ℕ) (h : i < l.length) :
    l.set i l[i] = l := by
  apply List.ext_getElem (by simp)
  intro n h1 h2
  rw [List.getElem_set]
  split
  · simp_all
  · rfl

theorem cons_set_perm : ∀ (r : List ℕ) (t : ℕ) (a : ℕ) (h : t < r.length),
    List.Perm (r[t] :: r.set t a) (a :: r) := by
  intro r
  induction r with
  | nil => intro t a h; simp at h
  | cons x s ih =>
    intro t a h
    match t with
    | 0 =>
      show List.Perm (x :: a :: s) (a :: x :: s)
      exact List.Perm.swap a x s
    | Nat.succ t2 =>
      have h2 : t2 < s.length := by simpa using h
      show List.Perm (s[t2] :: x :: s.set t2 a) (a :: x :: s)
      exact ((List.Perm.swap x (s[t2]) (s.set t2 a)).trans
        ((ih t2 a h2).cons x)).trans (List.Perm.swap a x s)

theorem swapAt_perm : ∀ (l : List ℕ) (i j : ℕ), i < l.length → j < l.length →
    List.Perm (swapAt l i j) l := by
  intro l
  induction l with
  | nil => intro i j hi hj; simp at hi
  | cons x s ih =>
    intro i j hi hj
    unfold swapAt
    match i, j with
    | 0, 0 =>
      show List.Perm (x :: s) (x :: s)
      exact List.Perm.refl _
    | 0, Nat.succ t =>
      have ht : t < s.length := by simpa using hj
      rw [List.getD_cons_succ, List.getD_cons_zero, List.getD_eq_getElem s 0 ht]
      show List.Perm (s[t] :: s.set t x) (x :: s)
      exact cons_set_perm s t x ht
    | Nat.succ t, 0 =>
      have ht : t < s.length := by simpa using hi
      rw [List.getD_cons_succ, List.getD_cons_zero, List.getD_eq_getElem s 0 ht]
      show List.Perm (s[t] :: s.set t x) (x :: s)
      exact cons_set_perm s t x ht
    | Nat.succ a, Nat.succ b =>
      have ha : a < s.length := by simpa using hi
      have hb : b < s.length := by simpa using hj
      rw [List.getD_cons_succ, List.getD_cons_succ]
      show List.Perm (x :: swapAt s a b) (x :: s)
      exact (ih a b ha hb).cons x

theorem posOf_eq_some {l : List ℕ} {x : ℕ} {i : ℕ} (h : posOf l x = some i) :
    x ∈ l ∧ i = l.indexOf x ∧ i < l.length := by
  unfold posOf at h
  split at h
  · rename_i hmem
    obtain rfl : l.indexOf x = i := by injection h
    exact ⟨hmem, rfl, List.indexOf_lt_length.2 hmem⟩
  · exact absurd h (by simp)

theorem applySwap_step_some {orig cur : List ℕ} {sd : ℕ × ℕ} {out : List ℕ}
    (h : (do
        let i ← posOf orig sd.1
        let j ← posOf orig sd.2
        pure (swapAt cur i j) : Option (List ℕ)) = some out) :
    ∃ i j, posOf orig sd.1 = some i ∧ posOf orig sd.2 = some j ∧
      out = swapAt cur i j := by
  cases hi : posOf orig sd.1 with
  | none => rw [hi] at h; simp at h
  | some i =>
    cases hj : posOf orig sd.2 with
    | none => rw [hi, hj] at h; simp at h
    | some j =>
      rw [hi, hj] at h
      simp only [Option.bind_eq_bind, Option.some_bind, pure] at h
      refine ⟨i, j, rfl, rfl, ?_⟩
      have := h.symm
      injection this

theorem applySwap_fold_perm : ∀ (items : List (ℕ × ℕ)) (orig cur out : List ℕ),
    List.Perm cur orig →
    (items.foldlM (fun c sd => do
        let i ← posOf orig sd.1
        let j ← posOf orig sd.2
        pure (swapAt c i j)) cur : Option (List ℕ)) = some out →
    List.Perm out orig := by
  intro items
  induction items with
  | nil =>
    intro orig cur out hp h
    simp only [List.foldlM] at h
    obtain rfl : cur = out := by injection h
    exact hp
  | cons sd rest ih =>
    intro orig cur out hp h
    simp only [List.foldlM] at h
    cases hstep : (do
        let i ← posOf orig sd.1
        let j ← posOf orig sd.2
        pure (swapAt cur i j) : Option (List ℕ)) with
    | none =>
      rw [hstep] at h
      simp at h
    | some c2 =>
      rw [hstep] at h
      simp only [Option.bind_eq_bind, Option.some_bind] at h
      obtain ⟨i, j, hi, hj, hc⟩ := applySwap_step_some hstep
      subst hc
      have hib := (posOf_eq_some hi).2.2
      have hjb := (posOf_eq_some hj).2.2
      have hlen := hp.length_eq
      have hc2 : List.Perm (swapAt cur i j) orig :=
        (swapAt_perm cur i j (by omega) (by omega)).trans hp
      exact ih orig _ out hc2 h

theorem applySwap_fold_eq (orig : List ℕ) :
    ∀ (items : List (ℕ × ℕ)) (cur : List ℕ),
    (∀ sd ∈ items, sd.1 ∈ orig ∧ sd.2 ∈ orig) →
    (items.foldlM (fun c sd => do
        let i ← posOf orig sd.1
        let j ← posOf orig sd.2
        pure (swapAt c i j)) cur : Option (List ℕ)) =
      some (items.foldl (fun c sd =>
        swapAt c (orig.indexOf sd.1) (orig.indexOf sd.2)) cur) := by
  intro items
  induction items with
  | nil => intro cur hmem; simp [List.foldlM]
  | cons sd rest ih =>
    intro cur hmem
    have h1 : posOf orig sd.1 = some (orig.indexOf sd.1) := by
      unfold posOf
      rw [if_pos (hmem sd (List.mem_cons_self sd rest)).1]
    have h2 : posOf orig sd.2 = some (orig.indexOf sd.2) := by
      unfold posOf
      rw [if_pos (hmem sd (List.mem_cons_self sd rest)).2]
    simp only [List.foldlM, h1, h2, Option.bind_eq_bind, Option.some_bind]
    rw [List.foldl_cons]
    exact ih _ (fun e he => hmem e (List.mem_cons_of_mem sd he))

/-- Modelled from the spec: the reading of swap-mode application in the C3
claim — the i-th transposition swaps the VALUES a_i and b_i wherever they
currently sit after the first i-1 transpositions. -/
def applySwapByValue (original : List ℕ) (items : List (ℕ × ℕ)) : List ℕ :=
  items.foldl (fun cur sd =>
    cur.map (fun x => if x = sd.1 then sd.2 else if x = sd.2 then sd.1 else x))
    original

/-- C3, counterexample to the claim as stated: on the distinct-node list
[0, 1, 2] with the swap sequence (0,1), (0,2), the code swaps at the FIXED
positions that 0, 1, 2 held in the input (giving [2, 0, 1]) while the
claim's value-based reading would track the moved value 0 (giving
[1, 2, 0]). -/
theorem c3_counterexample :
    Permutation.apply ⟨.swap, [(0, 1), (0, 2)]⟩ [0, 1, 2] = some [2, 0, 1] ∧
      applySwapByValue [0, 1, 2] [(0, 1), (0, 2)] = [1, 2, 0] ∧
      ([2, 0, 1] : List ℕ) ≠ [1, 2, 0] := by
  decide

/-- C3 (amended): on a duplicate-free list that contains every node named in
the swap sequence, apply succeeds, and the i-th transposition exchanges the
entries at the two positions that a_i and b_i occupied in the INPUT list
(the position index is computed once, before any transposition is applied);
the result is a rearrangement of the input list. -/
theorem c3_apply_swap_positional (original : List ℕ) (items : List (ℕ × ℕ))
    (hnd : original.Nodup)
    (hmem : ∀ sd ∈ items, sd.1 ∈ original ∧ sd.2 ∈ original) :
    Permutation.apply ⟨.swap, items⟩ original =
      some (items.foldl (fun cur sd =>
        swapAt cur (original.indexOf sd.1) (original.indexOf sd.2)) original) ∧
    ∀ out, Permutation.apply ⟨.swap, items⟩ original = some out →
      List.Perm out original := by
  constructor
  · exact applySwap_fold_eq original items original hmem
  · intro out h
    exact applySwap_fold_perm items original original out (List.Perm.refl _) h

/-- C3 witness: the amended statement evaluated on the concrete input of the
counterexample. -/
theorem c3_witness :
    Permutation.apply ⟨.swap, [(0, 1), (0, 2)]⟩ [0, 1, 2] =
      some ([(0, 1), (0, 2)].foldl (fun cur sd =>
        swapAt cur (([0, 1, 2] : List ℕ).indexOf sd.1)
          (([0, 1, 2] : List ℕ).indexOf sd.2)) [0, 1, 2]) ∧
    ∀ out, Permutation.apply ⟨.swap, [(0, 1), (0, 2)]⟩ [0, 1, 2] = some out →
      List.Perm out [0, 1, 2] :=
  c3_apply_swap_positional [0, 1, 2] [(0, 1), (0, 2)] (by decide) (by decide)

theorem addEdge_fold_nodup : ∀ (es acc : List (ℕ × ℕ)),
    ((acc.map (fun e => nedge e.1 e.2)).Nodup) →
    (((es.foldl addEdgeNoMulti acc).map (fun e => nedge e.1 e.2)).Nodup) := by
  intro es
  induction es with
  | nil => intro acc h; exact h
  | cons e rest ih =>
    intro acc h
    rw [List.foldl_cons]
    apply ih
    unfold addEdgeNoMulti
    split
    · exact h
    · rename_i hany
      rw [List.map_append]
      rw [List.nodup_append]
      refine ⟨h, List.nodup_singleton _, ?_⟩
      intro x hx hx2
      simp only [List.map_cons, List.map_nil, List.mem_singleton] at hx2
      subst hx2
      rw [List.mem_map] at hx
      obtain ⟨f, hf, hfe⟩ := hx
      have : acc.any (fun f => nedge f.1 f.2 == nedge e.1 e.2) = true := by
        rw [List.any_eq_true]
        exact ⟨f, hf, by rw [beq_iff_eq]; exact hfe⟩
      exact hany this

theorem addEdge_fold_toFinset : ∀ (es acc : List (ℕ × ℕ)),
    ((es.foldl addEdgeNoMulti acc).map (fun e => nedge e.1 e.2)).toFinset =
      (acc.map (fun e => nedge e.1 e.2)).toFinset ∪
        (es.map (fun e => nedge e.1 e.2)).toFinset := by
  intro es
  induction es with
  | nil => intro acc; simp
  | cons e rest ih =>
    intro acc
    rw [List.foldl_cons, ih]
    unfold addEdgeNoMulti
    split
    · rename_i hany
      rw [List.any_eq_true] at hany
      obtain ⟨f, hf, hfe⟩ := hany
      rw [beq_iff_eq] at hfe
      have hmem : nedge e.1 e.2 ∈ (acc.map (fun e => nedge e.1 e.2)).toFinset := by
        rw [List.mem_toFinset]
        exact hfe ▸ List.mem_map_of_mem _ hf
      ext x
      simp only [Finset.mem_union, List.mem_toFinset, List.map_cons,
        List.mem_cons]
      constructor
      · rintro (hx | hx)
        · exact Or.inl hx
        · exact Or.inr (Or.inr hx)
      · rintro (hx | hx | hx)
        · exact Or.inl hx
        · subst hx
          exact Or.inl (List.mem_toFinset.1 hmem)
        · exact Or.inr hx
    · rw [List.map_append, List.toFinset_append]
      ext x
      simp only [Finset.mem_union, List.mem_toFinset, List.map_cons,
        List.map_nil, List.mem_singleton, List.mem_cons]
      tauto

theorem sorted_indexOf_lt {L : List ℕ} (hsorted : L.Sorted (· ≤ ·))
    {a b : ℕ} (haL : a ∈ L) (hbL : b ∈ L) (hab : a < b) :
    L.indexOf a < L.indexOf b := by
  have hia := List.indexOf_lt_length.2 haL
  have hib := List.indexOf_lt_length.2 hbL
  by_contra hc
  push_neg at hc
  rcases Nat.lt_or_ge (L.indexOf b) (L.indexOf a) with hlt | hge
  · have hrel := hsorted.rel_get_of_lt
      (a := ⟨L.indexOf b, hib⟩) (b := ⟨L.indexOf a, hia⟩) (Fin.mk_lt_mk.2 hlt)
    rw [List.indexOf_get, List.indexOf_get] at hrel
    omega
  · have heq : L.indexOf a = L.indexOf b := by omega
    have h1 := List.indexOf_get (l := L) (a := a) hia
    have h2 := List.indexOf_get (l := L) (a := b) hib
    rw [← h1, ← h2] at hab
    simp only [heq] at hab
    omega

/-- The relabelling base of from_edges: the distinct endpoint labels seen in
the input edge list, in ascending order (sorted(set(...))). -/
def sortedLabels (edges : List (ℕ × ℕ)) : List ℕ :=
  List.insertionSort (· ≤ ·) ((edges.flatMap (fun e => [e.1, e.2])).dedup)

/-- The new label from_edges gives to an old label: its rank in the sorted
list of labels seen. -/
def rankOf (edges : List (ℕ × ℕ)) (x : ℕ) : ℕ :=
  (sortedLabels edges).indexOf x

instance : DecidableEq (Except String Graph) := fun a b =>
  match a, b with
  | .ok x, .ok y =>
    if h : x = y then isTrue (by rw [h])
    else isFalse (fun hc => h (by injection hc))
  | .error x, .error y =>
    if h : x = y then isTrue (by rw [h])
    else isFalse (fun hc => h (by injection hc))
  | .ok x, .error y => isFalse (fun hc => Except.noConfusion hc)
  | .error x, .ok y => isFalse (fun hc => Except.noConfusion hc)

/-- C8, counterexample to the claim as stated: an input with a parallel edge
(the unordered pair 0-1 listed twice) is NOT rejected — the multigraph=False
construction silently replaces the duplicate, the constructor check then
finds no parallel edge, and from_edges returns the deduplicated one-edge
graph. -/
theorem c8_counterexample :
    from_edges [(0, 1), (1, 0)] = Except.ok ⟨{0, 1}, {(0, 1)}⟩ := by
  decide

/-- C8 (amended): from_edges never fails; it relabels every endpoint with
its rank in the sorted set of labels seen (a strictly monotone, hence
sort-order-preserving map onto 0..k-1) and returns the graph on nodes
0..k-1 whose edge set is the deduplicated image of the input edges.  The
claimed rejection of inputs with parallel edges does not happen: the
PyGraph is built with multigraph = False, which replaces duplicates, so the
constructor's parallel-edge check never fires. -/
theorem c8_from_edges_relabel (edges : List (ℕ × ℕ)) :
    from_edges edges = Except.ok
      ⟨Finset.range (sortedLabels edges).length,
        (edges.map (fun e =>
          nedge (rankOf edges e.1) (rankOf edges e.2))).toFinset⟩ ∧
    (∀ a ∈ sortedLabels edges, ∀ b ∈ sortedLabels edges,
      a < b → rankOf edges a < rankOf edges b) ∧
    (∀ a ∈ sortedLabels edges, rankOf edges a < (sortedLabels edges).length) := by
  refine ⟨?_, ?_, ?_⟩
  · have hnodup : (((edges.map (fun e =>
        ((sortedLabels edges).indexOf e.1,
          (sortedLabels edges).indexOf e.2))).foldl
            addEdgeNoMulti []).map (fun e => nedge e.1 e.2)).Nodup :=
      addEdge_fold_nodup _ [] (by simp)
    have hnp : hasParallelEdges ((edges.map (fun e =>
        ((sortedLabels edges).indexOf e.1,
          (sortedLabels edges).indexOf e.2))).foldl
            addEdgeNoMulti []) = false := by
      unfold hasParallelEdges
      rw [List.dedup_eq_self.2 hnodup]
      simp
    simp only [sortedLabels] at hnp
    simp only [from_edges, hnp, Bool.false_eq_true, if_false]
    congr 1
    apply Graph.eq_of
    · rfl
    · show ((_ : List (ℕ × ℕ)).map _).toFinset = _
      rw [addEdge_fold_toFinset _ []]
      simp only [List.map_nil, List.toFinset_nil, Finset.empty_union,
        List.map_map]
      unfold rankOf sortedLabels
      rfl
  · intro a ha b hb hab
    exact sorted_indexOf_lt
      (List.sorted_insertionSort (· ≤ ·) _) ha hb hab
  · intro a ha
    exact List.indexOf_lt_length.2 ha

/-- Explicit randomness: the value streams backing Python's random module.
nats feeds index draws (choice, shuffle, randint, weighted picks), ints
feeds the rounded Gaussian draws.  A cursor into the streams is threaded
through every operation; distributions are abstracted, and every theorem
quantifies over all streams. -/
structure RStream where
  nats : ℕ → ℕ
  ints : ℕ → ℤ

/-- Selection loop of the shuffle model: repeatedly pick an element by a
stream-chosen index and move it to the front. -/
def rShuffleGo (r : RStream) [DecidableEq α] :
    ℕ → List α → ℕ → List α × ℕ
  | 0, l, k => (l, k)
  | n + 1, l, k =>
    match l[r.nats k % l.length]? with
    | none => (l, k)
    | some x =>
      ((rShuffleGo r n (l.erase x) (k + 1)).1.cons x,
        (rShuffleGo r n (l.erase x) (k + 1)).2)

/-- random.shuffle: replace the list by a permutation of it selected by the
stream. -/
def rShuffle (r : RStream) (k : ℕ) [DecidableEq α] (l : List α) :
    List α × ℕ :=
  rShuffleGo r l.length l k

/-- random.sample(l, n) for n at most the length: n distinct elements, i.e.
a prefix of a shuffle. -/
def rSample (r : RStream) (k : ℕ) [DecidableEq α] (l : List α) (n : ℕ) :
    List α × ℕ :=
  ((rShuffle r k l).1.take n, (rShuffle r k l).2)

/-- random.choices(l, k = n): n independent draws with replacement. -/
def rChoices (r : RStream) (dflt : α) (l : List α) : ℕ → ℕ → List α × ℕ
  | 0, k => ([], k)
  | n + 1, k =>
    let x := l.getD (r.nats k % l.length) dflt
    let rest := rChoices r dflt l n (k + 1)
    (x :: rest.1, rest.2)

/-- math.ceil(random.gauss(mu, sigma)): an arbitrary integer drawn from the
stream (the Gaussian distribution, its mean subgraph_size and its standard
deviation SUBGRAPH_SIZE_STD are abstracted into the stream). -/
def rGaussCeil (r : RStream) (k : ℕ) : ℤ × ℕ :=
  (r.ints k, k + 1)

/-- random.randint(1, 4). -/
def rInt1to4 (r : RStream) (k : ℕ) : ℕ × ℕ :=
  (r.nats k % 4 + 1, k + 1)

/-- random.choices((1, 2), (.5 - CONSEC_SWAPS_BIAS, .5 + CONSEC_SWAPS_BIAS)):
a draw from {1, 2} (the weights are abstracted into the stream). -/
def rPick12 (r : RStream) (k : ℕ) : ℕ × ℕ :=
  (r.nats k % 2 + 1, k + 1)

theorem rShuffleGo_perm (r : RStream) [DecidableEq α] :
    ∀ (n : ℕ) (l : List α) (k : ℕ),
    List.Perm (rShuffleGo r n l k).1 l := by
  intro n
  induction n with
  | zero => intro l k; exact List.Perm.refl _
  | succ m ih =>
    intro l k
    unfold rShuffleGo
    cases hx : l[r.nats k % l.length]? with
    | none => exact List.Perm.refl _
    | some x =>
      have hxl : x ∈ l := by
        have := List.getElem?_mem hx
        exact this
      exact ((ih (l.erase x) (k + 1)).cons x).trans
        (List.perm_cons_erase hxl).symm

theorem rShuffle_perm (r : RStream) (k : ℕ) [DecidableEq α] (l : List α) :
    List.Perm (rShuffle r k l).1 l :=
  rShuffleGo_perm r l.length l k

/-- OptType of config.py (the three-variant meaning). -/
inductive OptType where
  | opt1
  | opt2
  | depth
deriving DecidableEq

/-- The configuration bundle a QUEKNO builder instance carries. -/
structure Config where
  opt_type : OptType
  target_cost : ℕ
  archgraph : Graph
  subgraph_size : ℕ
  qbg_ratio : ℚ
deriving DecidableEq

/-- Modelled from the spec: GLINK_SEARCH_PATIENCE (the number of permutation
attempts per candidate subgraph in next_glink) is referenced by
lib/quekno.py but its defining assignment is not among the provided source
files; the spec lists its default as 10. -/
def GLINK_SEARCH_PATIENCE : ℕ := 10

/-- RAND_EDGES_VAR of config.py as an exact rational. -/
def RAND_EDGES_VAR : ℚ := 5 / 100

/-- Glink of lib/glink.py: a (subgraph, permutation) pair; the chain is the
list of glinks in head-to-tail order (the next pointers become list
order). -/
structure Glink where
  graph : Graph
  perm : Permutation
deriving DecidableEq

/-- The default glink used with getLastD; every chain the builder constructs
is nonempty, so it is never read. -/
def dfltGlink : Glink :=
  ⟨⟨∅, ∅⟩, ⟨.map, []⟩⟩

/-- Neighbour list of a node, in the canonical node order. -/
def Graph.neighboursList (g : Graph) (u : ℕ) : List ℕ :=
  g.nodeList.filter (fun n => nedge u n ∈ g.edges)

/-- Graph.incident_edges: one oriented Edge(src, dst) per neighbour dst. -/
def Graph.incidentEdges (g : Graph) (u : ℕ) : List (ℕ × ℕ) :=
  (g.neighboursList u).map (fun n => (u, n))

/-- The edge-induced subgraph of a sampled edge list (rustworkx
edge_subgraph: nodes are the endpoints of the given edges, edges exactly
the given ones). -/
def edgeInduced (es : List (ℕ × ℕ)) : Graph :=
  ⟨(es.flatMap (fun e => [e.1, e.2])).toFinset, es.toFinset⟩

/-- QUEKNO.random_subgraph: a Gaussian edge-count draw, clamped below by 1
and above by the number of AG edges, then a uniform sample of that many
distinct edges inducing the subgraph. -/
def randomSubgraph (cfg : Config) (r : RStream) (k : ℕ) : Graph × ℕ :=
  let z := rGaussCeil r k
  let n : ℕ := (min (max z.1 1) (cfg.archgraph.numEdges : ℤ)).toNat
  let s := rSample r z.2 cfg.archgraph.edgeList n
  (edgeInduced s.1, s.2)

/-- Permutation.random: pair each node with the corresponding entry of a
uniform shuffle of the node list, giving a map-mode permutation. -/
def permutationRandom (nodes : List ℕ) (r : RStream) (k : ℕ) : Permutation × ℕ :=
  let s := rShuffle r k nodes
  (⟨.map, nodes.zip s.1⟩, s.2)

/-- Mutable state of the loops of QUEKNO.__consecutive_permutations: the
current (src1, dst1) binding (rewritten by the pair normalisation and kept
across inner iterations), the current num_swaps variable (overwritten by
every weighted draw and read again at the head of the outer loop), the
permutations yielded so far and the stream cursor. -/
structure CPState where
  src1 : ℕ
  dst1 : ℕ
  numSwaps : ℕ
  acc : List Permutation
  k : ℕ

/-- The inner loop of QUEKNO.__consecutive_permutations over the shuffled
incident edges: draw 1 or 2; on 1 yield the single swap (src1, dst1); on 2
reorient the pair so that consecutive-swap semantics is unambiguous (the
reorientation of src1/dst1 persists into later iterations) and yield the
two swaps. -/
def consecInner (r : RStream) : List (ℕ × ℕ) → CPState → CPState
  | [], st => st
  | (src2, dst2) :: rest, st =>
    if (rPick12 r st.k).1 = 1 then
      consecInner r rest
        ⟨st.src1, st.dst1, 1,
          st.acc ++ [⟨.swap, [(st.src1, st.dst1)]⟩], (rPick12 r st.k).2⟩
    else if st.src1 = src2 then
      consecInner r rest
        ⟨st.dst1, st.src1, 2,
          st.acc ++ [⟨.swap, [(st.dst1, st.src1), (src2, dst2)]⟩],
          (rPick12 r st.k).2⟩
    else if st.src1 = dst2 then
      consecInner r rest
        ⟨st.dst1, st.src1, 2,
          st.acc ++ [⟨.swap, [(st.dst1, st.src1), (dst2, src2)]⟩],
          (rPick12 r st.k).2⟩
    else if st.dst1 = dst2 then
      consecInner r rest
        ⟨st.src1, st.dst1, 2,
          st.acc ++ [⟨.swap, [(st.src1, st.dst1), (dst2, src2)]⟩],
          (rPick12 r st.k).2⟩
    else
      consecInner r rest
        ⟨st.src1, st.dst1, 2,
          st.acc ++ [⟨.swap, [(st.src1, st.dst1), (src2, dst2)]⟩],
          (rPick12 r st.k).2⟩

/-- The outer loop of QUEKNO.__consecutive_permutations over the shuffled
edge list: when the num_swaps variable currently reads 1, yield the single
swap straight away; otherwise build the incident-edge set of the current
edge, shuffle it and run the inner loop. -/
def consecOuter (r : RStream) (ag : Graph) :
    List (ℕ × ℕ) → ℕ → List Permutation → ℕ → List Permutation × ℕ
  | [], _, acc, k => (acc, k)
  | (src1, dst1) :: rest, ns, acc, k =>
    if ns = 1 then
      consecOuter r ag rest ns (acc ++ [⟨.swap, [(src1, dst1)]⟩]) k
    else
      let edges20 := (ag.incidentEdges src1 ++ ag.incidentEdges dst1).filter
        (fun e => nedge e.1 e.2 ≠ nedge src1 dst1)
      let sh := rShuffle r k edges20
      let st := consecInner r sh.1 ⟨src1, dst1, ns, acc, sh.2⟩
      consecOuter r ag rest st.numSwaps st.acc st.k

/-- QUEKNO.__consecutive_permutations, eagerly listing the whole finite
stream (the num_swaps argument check raises unless it is 1 or 2). -/
def consecutivePermutations (ag : Graph) (numSwaps : ℕ) (r : RStream)
    (k : ℕ) : Except String (List Permutation × ℕ) :=
  if numSwaps ≠ 1 ∧ numSwaps ≠ 2 then
    .error "num_swaps needs to be either 1 or 2"
  else
    let sh := rShuffle r k ag.edgeList
    .ok (consecOuter r ag sh.1 numSwaps [] sh.2)

/-- The selection loop of one yield of QUEKNO.__parallel_permutations:
filter the candidates to those vertex-disjoint from everything selected
(the null edge, containing no nodes, always survives), pick one, stop when
the null edge is picked, otherwise add the pick to the selection set. -/
def parallelStepLoop (r : RStream) :
    ℕ → List (Option (ℕ × ℕ)) → List (ℕ × ℕ) → ℕ →
      Option (List (ℕ × ℕ) × ℕ)
  | 0, _, _, _ => none
  | fuel + 1, cand, sel, k =>
    let cand2 := cand.filter (fun e =>
      is_disjoint (if e ∈ sel.map some then sel.map some else e :: sel.map some))
    match cand2.getD (r.nats k % cand2.length) none with
    | none => some (sel, k + 1)
    | some e =>
      parallelStepLoop r fuel cand2 (if e ∈ sel then sel else sel ++ [e])
        (k + 1)

/-- One yield of QUEKNO.__parallel_permutations: seed the selection with a
uniformly chosen edge, append the null edge to the candidates, run the
selection loop, and yield the selected edges as one swap-mode
permutation. -/
def parallelStep (ag : Graph) (r : RStream) (k fuel : ℕ) :
    Option (Permutation × ℕ) :=
  if ag.edgeList.isEmpty then none
  else
    match parallelStepLoop r fuel (ag.edgeList.map some ++ [none])
        [ag.edgeList.getD (r.nats k % ag.edgeList.length) (0, 0)] (k + 1) with
    | none => none
    | some (sel, k2) => some (⟨.swap, sel⟩, k2)

/-- The lazy permutation stream QUEKNO.permutations hands to next_glink:
either the remainder of the finite consecutive-swaps list, or the unbounded
parallel-swaps generator. -/
inductive PermStream where
  | consec : List Permutation → PermStream
  | par : PermStream
deriving DecidableEq

/-- QUEKNO.permutations: select and instantiate the stream for the current
regime; in the gate regimes the swap count is capped by the remaining
budget target_cost - cost. -/
def permutations (cfg : Config) (cost : ℕ) (r : RStream) (k : ℕ) :
    Except String (PermStream × ℕ) :=
  match cfg.opt_type with
  | .depth => .ok (.par, k)
  | t =>
    let ns0 := if t = OptType.opt1 then 1 else 2
    let ns := min ns0 (cfg.target_cost - cost)
    match consecutivePermutations cfg.archgraph ns r k with
    | .error e => .error e
    | .ok lk => .ok (.consec lk.1, lk.2)

/-- One next() on a permutation stream: some (none, k) is StopIteration,
outer none is the parallel generator not terminating within its fuel. -/
def streamDraw (ag : Graph) (s : PermStream) (r : RStream) (k fuel : ℕ) :
    Option (Option (Permutation × PermStream) × ℕ) :=
  match s with
  | .consec [] => some (none, k)
  | .consec (p :: rest) => some (some (p, .consec rest), k)
  | .par =>
    match parallelStep ag r k fuel with
    | none => none
    | some (p, k2) => some (some (p, .par), k2)

/-- The patience loop of QUEKNO.next_glink: up to GLINK_SEARCH_PATIENCE
draws from the stream, stopping early at the first permutation that makes a
strong glink; some (none, k) reports failure (patience exhausted or stream
exhausted), at the cursor the caller retries from. -/
def patienceLoop (matcher : Graph → Graph → Bool) (ag prevG nextG : Graph)
    (r : RStream) (fuel : ℕ) :
    ℕ → PermStream → ℕ → Option (Option Permutation × ℕ)
  | 0, _, k => some (none, k)
  | n + 1, s, k =>
    match streamDraw ag s r k fuel with
    | none => none
    | some (none, k2) => some (none, k2)
    | some (some (p, s2), k2) =>
      if is_strong_glink matcher ag prevG nextG p then some (some p, k2)
      else patienceLoop matcher ag prevG nextG r fuel n s2 k2

/-- QUEKNO.next_glink: repeatedly draw a fresh candidate subgraph, a fresh
permutation stream for the current cost, and run the patience loop until a
strong glink is found.  The unbounded retry loop carries explicit fuel. -/
def nextGlink (cfg : Config) (matcher : Graph → Graph → Bool) (prevG : Graph)
    (cost : ℕ) (r : RStream) (fuel : ℕ) :
    ℕ → ℕ → Option (Graph × Permutation × ℕ)
  | 0, _ => none
  | f + 1, k =>
    match permutations cfg cost r (randomSubgraph cfg r k).2 with
    | .error _ => none
    | .ok sk =>
      match patienceLoop matcher cfg.archgraph prevG (randomSubgraph cfg r k).1
          r fuel GLINK_SEARCH_PATIENCE sk.1 sk.2 with
      | none => none
      | some (none, k3) => nextGlink cfg matcher prevG cost r fuel f k3
      | some (some p, k3) => some ((randomSubgraph cfg r k).1, p, k3)

/-- The chain-growth loop of QUEKNO.build_glink_chain: while the
accumulated cost is below the target, find the next strong glink against
the tail subgraph, append it, and add its cost (its swap count in the gate
regimes, one in the depth regime). -/
def buildLoop (cfg : Config) (matcher : Graph → Graph → Bool) (r : RStream)
    (fuelPerCall : ℕ) :
    ℕ → List Glink → ℕ → ℕ → Option (List Glink × ℕ × ℕ)
  | 0, _, _, _ => none
  | f + 1, chain, cost, k =>
    if cost < cfg.target_cost then
      match nextGlink cfg matcher (chain.getLastD dfltGlink).graph cost r
          fuelPerCall fuelPerCall k with
      | none => none
      | some (g2, p2, k2) =>
        buildLoop cfg matcher r fuelPerCall f (chain ++ [⟨g2, p2⟩])
          (cost + (if cfg.opt_type = OptType.depth then 1 else p2.len)) k2
    else some (chain, cost, k)

/-- QUEKNO.build_glink_chain: initialise the chain with a random head
subgraph and a random map-mode layout permutation; return immediately when
target_cost is 0, otherwise grow until the accumulated cost reaches the
target.  The result carries the final stream cursor. -/
def buildGlinkChain (cfg : Config) (matcher : Graph → Graph → Bool)
    (r : RStream) (fuel : ℕ) : Option (List Glink × ℕ × ℕ) :=
  if cfg.target_cost = 0 then
    some ([Glink.mk (randomSubgraph cfg r 0).1
      (permutationRandom cfg.archgraph.nodeList r (randomSubgraph cfg r 0).2).1],
      0,
      (permutationRandom cfg.archgraph.nodeList r (randomSubgraph cfg r 0).2).2)
  else
    buildLoop cfg matcher r fuel fuel
      [Glink.mk (randomSubgraph cfg r 0).1
        (permutationRandom cfg.archgraph.nodeList r
          (randomSubgraph cfg r 0).2).1]
      0
      (permutationRandom cfg.archgraph.nodeList r (randomSubgraph cfg r 0).2).2

theorem mem_edgeList {g : Graph} {e : ℕ × ℕ} :
    e ∈ g.edgeList ↔ e ∈ g.edges := by
  unfold Graph.edgeList
  rw [List.mem_filter]
  constructor
  · rintro ⟨-, h⟩
    exact of_decide_eq_true h
  · intro h
    refine ⟨?_, decide_eq_true h⟩
    rw [List.mem_flatMap]
    have hle : max e.1 e.2 ≤ g.edges.sup (fun e => max e.1 e.2) :=
      Finset.le_sup (f := fun e => max e.1 e.2) h
    refine ⟨e.1, List.mem_range.2 (by omega), ?_⟩
    rw [List.mem_map]
    exact ⟨e.2, List.mem_range.2 (by omega), rfl⟩

theorem mem_nodeList {g : Graph} {x : ℕ} :
    x ∈ g.nodeList ↔ x ∈ g.nodes := by
  unfold Graph.nodeList
  rw [List.mem_filter]
  constructor
  · rintro ⟨-, h⟩
    exact of_decide_eq_true h
  · intro h
    refine ⟨?_, decide_eq_true h⟩
    have hle : id x ≤ g.nodes.sup id := Finset.le_sup h
    exact List.mem_range.2 (by simpa using Nat.lt_succ_of_le hle)

theorem nodeList_nodup (g : Graph) : g.nodeList.Nodup :=
  (List.nodup_range _).filter _

/-- The flattened endpoint list of a selection of real edges. -/
def flatNodes (sel : List (ℕ × ℕ)) : List ℕ :=
  sel.flatMap (fun e => [e.1, e.2])

theorem is_disjoint_iff (es : List (Option (ℕ × ℕ))) :
    is_disjoint es = true ↔
      (es.flatMap (fun e =>
        match e with | none => [] | some pr => [pr.1, pr.2])).Nodup := by
  unfold is_disjoint
  rw [beq_iff_eq]
  constructor
  · intro h
    have hsub := List.dedup_sublist (l := es.flatMap (fun e =>
      match e with | none => [] | some pr => [pr.1, pr.2]))
    have := hsub.eq_of_length h.symm
    rw [← this]
    exact List.nodup_dedup _
  · intro h
    rw [List.dedup_eq_self.2 h]

theorem consecInner_acc (r : RStream) : ∀ (edges2 : List (ℕ × ℕ))
    (st : CPState), ∀ p ∈ (consecInner r edges2 st).acc,
    p ∈ st.acc ∨ p.items.length = 1 ∨ p.items.length = 2 := by
  intro edges2
  induction edges2 with
  | nil => intro st p hp; exact Or.inl hp
  | cons e rest ih =>
    intro st p hp
    obtain ⟨src2, dst2⟩ := e
    unfold consecInner at hp
    have hcase : ∀ (st2 : CPState) (q : Permutation),
        p ∈ (consecInner r rest st2).acc →
        st2.acc = st.acc ++ [q] → (q.items.length = 1 ∨ q.items.length = 2) →
        p ∈ st.acc ∨ p.items.length = 1 ∨ p.items.length = 2 := by
      intro st2 q hmem hacc hq
      rcases ih st2 p hmem with hin | hlen
      · rw [hacc] at hin
        rcases List.mem_append.1 hin with h | h
        · exact Or.inl h
        · rw [List.mem_singleton] at h
          subst h
          exact Or.inr hq
      · exact Or.inr hlen
    split at hp
    · exact hcase _ _ hp rfl (Or.inl rfl)
    · split at hp
      · exact hcase _ _ hp rfl (Or.inr rfl)
      · split at hp
        · exact hcase _ _ hp rfl (Or.inr rfl)
        · split at hp
          · exact hcase _ _ hp rfl (Or.inr rfl)
          · exact hcase _ _ hp rfl (Or.inr rfl)

theorem consecOuter_spec (r : RStream) (ag : Graph) :
    ∀ (edges1 : List (ℕ × ℕ)) (ns : ℕ) (acc : List Permutation) (k : ℕ),
    ∀ p ∈ (consecOuter r ag edges1 ns acc k).1,
    p ∈ acc ∨ p.items.length = 1 ∨ p.items.length = 2 := by
  intro edges1
  induction edges1 with
  | nil => intro ns acc k p hp; exact Or.inl hp
  | cons e rest ih =>
    intro ns acc k p hp
    obtain ⟨src1, dst1⟩ := e
    unfold consecOuter at hp
    split at hp
    · rcases ih ns _ k p hp with hin | hlen
      · rcases List.mem_append.1 hin with h | h
        · exact Or.inl h
        · rw [List.mem_singleton] at h
          subst h
          exact Or.inr (Or.inl rfl)
      · exact Or.inr hlen
    · rcases ih _ _ _ p hp with hin | hlen
      · rcases consecInner_acc r _ _ p hin with h | h
        · exact Or.inl h
        · exact Or.inr h
      · exact Or.inr hlen

theorem consecOuter_one (r : RStream) (ag : Graph) :
    ∀ (edges1 : List (ℕ × ℕ)) (acc : List Permutation) (k : ℕ),
    ∀ p ∈ (consecOuter r ag edges1 1 acc k).1,
    p ∈ acc ∨ p.items.length = 1 := by
  intro edges1
  induction edges1 with
  | nil => intro acc k p hp; exact Or.inl hp
  | cons e rest ih =>
    intro acc k p hp
    obtain ⟨src1, dst1⟩ := e
    unfold consecOuter at hp
    rw [if_pos rfl] at hp
    rcases ih _ k p hp with hin | hlen
    · rcases List.mem_append.1 hin with h | h
      · exact Or.inl h
      · rw [List.mem_singleton] at h
        subst h
        exact Or.inr rfl
    · exact Or.inr hlen

theorem consecutivePermutations_len {ag : Graph} {ns : ℕ} {r : RStream}
    {k : ℕ} {l : List Permutation} {k2 : ℕ}
    (hns : ns = 1 ∨ ns = 2)
    (h : consecutivePermutations ag ns r k = .ok (l, k2)) :
    ∀ p ∈ l, 1 ≤ p.items.length ∧ p.items.length ≤ ns := by
  unfold consecutivePermutations at h
  rw [if_neg (by omega)] at h
  intro p hp
  have hl : l = (consecOuter r ag (rShuffle r k ag.edgeList).1 ns []
      (rShuffle r k ag.edgeList).2).1 := by
    injection h with h2
    rw [h2]
  rcases hns with rfl | rfl
  · rcases consecOuter_one r ag _ [] _ p (hl ▸ hp) with h3 | h3
    · simp at h3
    · omega
  · rcases consecOuter_spec r ag _ 2 [] _ p (hl ▸ hp) with h3 | h3
    · simp at h3
    · omega

theorem flatNodes_append (l1 l2 : List (ℕ × ℕ)) :
    flatNodes (l1 ++ l2) = flatNodes l1 ++ flatNodes l2 :=
  List.flatMap_append ..

theorem flatMap_map_some (sel : List (ℕ × ℕ)) :
    ((sel.map some).flatMap (fun e =>
      match e with | none => [] | some pr => [pr.1, pr.2])) = flatNodes sel := by
  unfold flatNodes
  simp [List.flatMap_map, Function.comp]

theorem parallelStepLoop_spec (r : RStream) (S : Finset (ℕ × ℕ)) :
    ∀ (fuel : ℕ) (cand : List (Option (ℕ × ℕ))) (sel : List (ℕ × ℕ)) (k : ℕ)
      (selF : List (ℕ × ℕ)) (kF : ℕ),
    parallelStepLoop r fuel cand sel k = some (selF, kF) →
    (∀ e, some e ∈ cand → e ∈ S) →
    sel ≠ [] → (flatNodes sel).Nodup → (∀ e ∈ sel, e ∈ S) →
    selF ≠ [] ∧ (flatNodes selF).Nodup ∧ ∀ e ∈ selF, e ∈ S := by
  intro fuel
  induction fuel with
  | zero =>
    intro cand sel k selF kF h
    simp [parallelStepLoop] at h
  | succ f ih =>
    intro cand sel k selF kF h hcand hne hnd hmem
    unfold parallelStepLoop at h
    cases hpick : (cand.filter (fun e =>
        is_disjoint (if e ∈ sel.map some then sel.map some
          else e :: sel.map some))).getD
        (r.nats k % (cand.filter (fun e =>
          is_disjoint (if e ∈ sel.map some then sel.map some
            else e :: sel.map some))).length) none with
    | none =>
      simp only [hpick] at h
      obtain ⟨h1, h2⟩ := Prod.mk.injEq .. ▸ (by injection h : (sel, k + 1) = (selF, kF))
      exact h1 ▸ ⟨hne, hnd, hmem⟩
    | some e =>
      simp only [hpick] at h
      have hcne : cand.filter (fun e =>
          is_disjoint (if e ∈ sel.map some then sel.map some
            else e :: sel.map some)) ≠ [] := by
        intro h0
        rw [h0] at hpick
        simp at hpick
      have hlen : r.nats k % (cand.filter (fun e =>
          is_disjoint (if e ∈ sel.map some then sel.map some
            else e :: sel.map some))).length < (cand.filter (fun e =>
          is_disjoint (if e ∈ sel.map some then sel.map some
            else e :: sel.map some))).length :=
        Nat.mod_lt _ (List.length_pos.2 hcne)
      rw [List.getD_eq_getElem _ _ hlen] at hpick
      have hmem2 : some e ∈ cand.filter (fun e =>
          is_disjoint (if e ∈ sel.map some then sel.map some
            else e :: sel.map some)) := hpick ▸ List.getElem_mem hlen
      rw [List.mem_filter] at hmem2
      obtain ⟨hincand, hdisj⟩ := hmem2
      have hcand2 : ∀ x, some x ∈ cand.filter (fun e =>
          is_disjoint (if e ∈ sel.map some then sel.map some
            else e :: sel.map some)) → x ∈ S := by
        intro x hx
        exact hcand x (List.mem_filter.1 hx).1
      by_cases hesel : e ∈ sel
      · rw [if_pos hesel] at h
        exact ih _ _ _ _ _ h hcand2 hne hnd hmem
      · rw [if_neg hesel] at h
        have hnotmap : some e ∉ sel.map some := by
          intro hx
          rw [List.mem_map] at hx
          obtain ⟨a, ha, hae⟩ := hx
          exact hesel (by injection hae with h3; exact h3 ▸ ha)
        rw [if_neg hnotmap] at hdisj
        have hnd2 : (flatNodes (sel ++ [e])).Nodup := by
          have := (is_disjoint_iff _).1 hdisj
          rw [List.flatMap_cons, flatMap_map_some] at this
          rw [flatNodes_append]
          have hperm : List.Perm (flatNodes sel ++ flatNodes [e])
              ([e.1, e.2] ++ flatNodes sel) := by
            have : flatNodes [e] = [e.1, e.2] := by
              unfold flatNodes
              simp
            rw [this]
            exact List.perm_append_comm
          exact (List.Perm.nodup_iff hperm).2 this
        refine ih _ _ _ _ _ h hcand2 (by simp) hnd2 ?_
        intro x hx
        rcases List.mem_append.1 hx with hx | hx
        · exact hmem x hx
        · rw [List.mem_singleton] at hx
          exact hx ▸ hcand e hincand

theorem parallelStep_spec {ag : Graph} (hwf : ag.WF)
    {r : RStream} {k fuel : ℕ} {p : Permutation} {k2 : ℕ}
    (h : parallelStep ag r k fuel = some (p, k2)) :
    p.items ≠ [] ∧ (flatNodes p.items).Nodup ∧
      ∀ e ∈ p.items, e ∈ ag.edges := by
  unfold parallelStep at h
  split at h
  · exact absurd h (by simp)
  · rename_i hne0
    have hne : ag.edgeList ≠ [] := by
      intro h0
      rw [h0] at hne0
      simp at hne0
    have hlen : r.nats k % ag.edgeList.length < ag.edgeList.length :=
      Nat.mod_lt _ (List.length_pos.2 hne)
    set e0 := ag.edgeList.getD (r.nats k % ag.edgeList.length) (0, 0) with he0
    have he0mem : e0 ∈ ag.edgeList := by
      rw [he0, List.getD_eq_getElem _ _ hlen]
      exact List.getElem_mem hlen
    have he0E : e0 ∈ ag.edges := mem_edgeList.1 he0mem
    cases hloop : parallelStepLoop r fuel (ag.edgeList.map some ++ [none])
        [e0] (k + 1) with
    | none =>
      rw [hloop] at h
      exact absurd h (by simp)
    | some out =>
      obtain ⟨sel, kf⟩ := out
      rw [hloop] at h
      have hp : p = Permutation.mk PMode.swap sel := by
        injection h with h1
        exact (congrArg Prod.fst h1).symm
      have hcand : ∀ x, some x ∈ ag.edgeList.map some ++ [none] →
          x ∈ ag.edges := by
        intro x hx
        rcases List.mem_append.1 hx with hx | hx
        · rw [List.mem_map] at hx
          obtain ⟨a, ha, hae⟩ := hx
          have hax : a = x := by injection hae
          exact hax ▸ mem_edgeList.1 ha
        · simp at hx
      have hnd0 : (flatNodes [e0]).Nodup := by
        have hlt := hwf.norm _ he0E
        unfold flatNodes
        simp only [List.flatMap_cons, List.flatMap_nil, List.append_nil]
        simp [List.nodup_cons]
        omega
      have hm0 : ∀ x ∈ [e0], x ∈ ag.edges := by
        intro x hx
        rw [List.mem_singleton] at hx
        exact hx ▸ he0E
      have hspec := parallelStepLoop_spec r ag.edges fuel _ [e0] (k + 1)
        sel kf hloop hcand (by simp) hnd0 hm0
      rw [hp]
      exact hspec

theorem patienceLoop_consec (matcher : Graph → Graph → Bool)
    (ag prevG nextG : Graph) (r : RStream) (fuel : ℕ) :
    ∀ (n : ℕ) (l : List Permutation) (k : ℕ) (p : Permutation) (k2 : ℕ),
    patienceLoop matcher ag prevG nextG r fuel n (.consec l) k =
      some (some p, k2) → p ∈ l := by
  intro n
  induction n with
  | zero =>
    intro l k p k2 h
    simp [patienceLoop] at h
  | succ m ih =>
    intro l k p k2 h
    unfold patienceLoop streamDraw at h
    cases l with
    | nil => simp at h
    | cons q rest =>
      simp only at h
      split at h
      · have hqp : q = p := by
          have h2 : some q = some p := by
            injection h with h1
            exact congrArg Prod.fst h1
          exact Option.some.inj h2
        exact hqp ▸ List.mem_cons_self q rest
      · exact List.mem_cons_of_mem q (ih rest k p k2 h)

theorem patienceLoop_par (matcher : Graph → Graph → Bool)
    (ag prevG nextG : Graph) (r : RStream) (fuel : ℕ) :
    ∀ (n : ℕ) (k : ℕ) (p : Permutation) (k2 : ℕ),
    patienceLoop matcher ag prevG nextG r fuel n .par k = some (some p, k2) →
    ∃ k0 k1, parallelStep ag r k0 fuel = some (p, k1) := by
  intro n
  induction n with
  | zero =>
    intro k p k2 h
    simp [patienceLoop] at h
  | succ m ih =>
    intro k p k2 h
    unfold patienceLoop streamDraw at h
    cases hps : parallelStep ag r k fuel with
    | none =>
      rw [hps] at h
      simp at h
    | some qk =>
      obtain ⟨q, k3⟩ := qk
      rw [hps] at h
      simp only at h
      split at h
      · have hqp : q = p := by
          have h2 : some q = some p := by
            injection h with h1
            exact congrArg Prod.fst h1
          exact Option.some.inj h2
        exact ⟨k, k3, hqp ▸ hps⟩
      · exact ih k3 p k2 h

theorem permutations_ok_inv {cfg : Config} {cost : ℕ} {r : RStream} {k : ℕ}
    {s : PermStream} {k2 : ℕ}
    (hgate : cfg.opt_type ≠ OptType.depth) (hcost : cost < cfg.target_cost)
    (h : permutations cfg cost r k = .ok (s, k2)) :
    ∃ l, s = .consec l ∧
      ∀ p ∈ l, 1 ≤ p.items.length ∧
        p.items.length ≤ cfg.target_cost - cost := by
  unfold permutations at h
  cases hopt : cfg.opt_type with
  | depth => exact absurd hopt hgate
  | opt1 =>
    rw [hopt] at h
    simp at h
    cases hc : consecutivePermutations cfg.archgraph
        (1 ⊓ (cfg.target_cost - cost)) r k with
    | error e =>
      rw [hc] at h
      exact absurd h (by simp)
    | ok lk =>
      rw [hc] at h
      obtain ⟨l0, k0⟩ := lk
      have hs : s = .consec l0 := by
        injection h with h1
        exact (congrArg Prod.fst h1).symm
      refine ⟨l0, hs, ?_⟩
      intro p hp
      have hns : (1 ⊓ (cfg.target_cost - cost)) = 1 := by
        rw [inf_eq_min]
        omega
      have hb := consecutivePermutations_len (Or.inl hns) hc p hp
      omega
  | opt2 =>
    rw [hopt] at h
    simp at h
    cases hc : consecutivePermutations cfg.archgraph
        (2 ⊓ (cfg.target_cost - cost)) r k with
    | error e =>
      rw [hc] at h
      exact absurd h (by simp)
    | ok lk =>
      rw [hc] at h
      obtain ⟨l0, k0⟩ := lk
      have hs : s = .consec l0 := by
        injection h with h1
        exact (congrArg Prod.fst h1).symm
      refine ⟨l0, hs, ?_⟩
      intro p hp
      have hmin : (2 ⊓ (cfg.target_cost - cost)) = 1 ∨
          (2 ⊓ (cfg.target_cost - cost)) = 2 := by
        rw [inf_eq_min]
        omega
      have hb := consecutivePermutations_len hmin hc p hp
      have hle : (2 ⊓ (cfg.target_cost - cost)) ≤ cfg.target_cost - cost := by
        rw [inf_eq_min]
        omega
      omega

theorem permutations_depth {cfg : Config} {cost : ℕ} {r : RStream} {k : ℕ}
    (hd : cfg.opt_type = OptType.depth) :
    permutations cfg cost r k = .ok (.par, k) := by
  unfold permutations
  rw [hd]

theorem nextGlink_len (cfg : Config) (matcher : Graph → Graph → Bool)
    (prevG : Graph) (cost : ℕ) (r : RStream) (fuel : ℕ)
    (hgate : cfg.opt_type ≠ OptType.depth) (hcost : cost < cfg.target_cost) :
    ∀ (f k : ℕ) (g : Graph) (p : Permutation) (k2 : ℕ),
    nextGlink cfg matcher prevG cost r fuel f k = some (g, p, k2) →
    1 ≤ p.items.length ∧ p.items.length ≤ cfg.target_cost - cost := by
  intro f
  induction f with
  | zero =>
    intro k g p k2 h
    simp [nextGlink] at h
  | succ m ih =>
    intro k g p k2 h
    unfold nextGlink at h
    cases hperm : permutations cfg cost r (randomSubgraph cfg r k).2 with
    | error e =>
      rw [hperm] at h
      simp at h
    | ok sk =>
      obtain ⟨s, ks⟩ := sk
      obtain ⟨l, hsl, hlen⟩ := permutations_ok_inv hgate hcost hperm
      subst hsl
      rw [hperm] at h
      simp only at h
      cases hp : patienceLoop matcher cfg.archgraph prevG
          (randomSubgraph cfg r k).1 r fuel GLINK_SEARCH_PATIENCE
          (.consec l) ks with
      | none =>
        rw [hp] at h
        simp at h
      | some o =>
        obtain ⟨po, k3⟩ := o
        rw [hp] at h
        cases po with
        | none => exact ih k3 g p k2 h
        | some q =>
          have hq : q = p := by
            have h2 : some (q, k3) = some (p, k2) := by
              injection h with h1
              exact congrArg (fun t => some t.2) h1
            injection h2 with h3
            exact congrArg Prod.fst h3
          exact hq ▸ hlen q (patienceLoop_consec matcher cfg.archgraph prevG
            (randomSubgraph cfg r k).1 r fuel GLINK_SEARCH_PATIENCE l ks q k3 hp)

theorem nextGlink_depth_spec (cfg : Config) (matcher : Graph → Graph → Bool)
    (prevG : Graph) (cost : ℕ) (r : RStream) (fuel : ℕ)
    (hd : cfg.opt_type = OptType.depth) (hwf : cfg.archgraph.WF) :
    ∀ (f k : ℕ) (g : Graph) (p : Permutation) (k2 : ℕ),
    nextGlink cfg matcher prevG cost r fuel f k = some (g, p, k2) →
    p.items ≠ [] ∧ (flatNodes p.items).Nodup ∧
      ∀ e ∈ p.items, e ∈ cfg.archgraph.edges := by
  intro f
  induction f with
  | zero =>
    intro k g p k2 h
    simp [nextGlink] at h
  | succ m ih =>
    intro k g p k2 h
    unfold nextGlink at h
    rw [permutations_depth hd] at h
    simp only at h
    cases hp : patienceLoop matcher cfg.archgraph prevG
        (randomSubgraph cfg r k).1 r fuel GLINK_SEARCH_PATIENCE .par
        (randomSubgraph cfg r k).2 with
    | none =>
      rw [hp] at h
      simp at h
    | some o =>
      obtain ⟨po, k3⟩ := o
      rw [hp] at h
      cases po with
      | none => exact ih k3 g p k2 h
      | some q =>
        have hq : q = p := by
          have h2 : some (q, k3) = some (p, k2) := by
            injection h with h1
            exact congrArg (fun t => some t.2) h1
          injection h2 with h3
          exact congrArg Prod.fst h3
        obtain ⟨k0, k1, hps⟩ := patienceLoop_par matcher cfg.archgraph prevG
          (randomSubgraph cfg r k).1 r fuel GLINK_SEARCH_PATIENCE
          (randomSubgraph cfg r k).2 q k3 hp
        exact hq ▸ parallelStep_spec hwf hps

theorem buildLoop_cost (cfg : Config) (matcher : Graph → Graph → Bool)
    (r : RStream) (fuelPC : ℕ) :
    ∀ (f : ℕ) (chain : List Glink) (cost k : ℕ) (chainF : List Glink)
      (costF kF : ℕ),
    cost ≤ cfg.target_cost →
    buildLoop cfg matcher r fuelPC f chain cost k = some (chainF, costF, kF) →
    costF = cfg.target_cost := by
  intro f
  induction f with
  | zero =>
    intro chain cost k chainF costF kF hle h
    simp [buildLoop] at h
  | succ m ih =>
    intro chain cost k chainF costF kF hle h
    unfold buildLoop at h
    split at h
    · rename_i hlt
      cases hng : nextGlink cfg matcher (chain.getLastD dfltGlink).graph cost
          r fuelPC fuelPC k with
      | none =>
        rw [hng] at h
        simp at h
      | some out =>
        obtain ⟨g2, p2, k2⟩ := out
        rw [hng] at h
        simp only at h
        by_cases hd : cfg.opt_type = OptType.depth
        · rw [if_pos hd] at h
          exact ih _ _ _ _ _ _ (by omega) h
        · rw [if_neg hd] at h
          have hlen := nextGlink_len cfg matcher _ cost r fuelPC hd hlt
            fuelPC k g2 p2 k2 hng
          have hlen2 : p2.len = p2.items.length := rfl
          exact ih _ _ _ _ _ _ (by omega) h
    · rename_i hge
      have hc : cost = costF := by
        injection h with h1
        exact congrArg (fun t => t.2.1) h1
      omega

/-- C1: whenever build_glink_chain terminates, the cost it returns equals
target_cost exactly — in the depth regime every appended glink adds one, and
in the gate regimes the permutation stream is capped to the remaining budget
so the accumulated cost never overshoots. -/
theorem c1_build_glink_chain_cost (cfg : Config)
    (matcher : Graph → Graph → Bool) (r : RStream) (fuel : ℕ)
    (chain : List Glink) (cost k : ℕ)
    (h : buildGlinkChain cfg matcher r fuel = some (chain, cost, k)) :
    cost = cfg.target_cost := by
  unfold buildGlinkChain at h
  split at h
  · rename_i h0
    have hc : (0 : ℕ) = cost := by
      injection h with h1
      exact congrArg (fun t => t.2.1) h1
    omega
  · exact buildLoop_cost cfg matcher r fuel fuel _ 0 _ chain cost k
      (Nat.zero_le _) h

theorem buildLoop_suffix (cfg : Config) (matcher : Graph → Graph → Bool)
    (r : RStream) (fuelPC : ℕ) (P : Glink → Prop)
    (hstep : ∀ (prevG : Graph) (cost : ℕ) (f k : ℕ) (g : Graph)
      (p : Permutation) (k2 : ℕ),
      nextGlink cfg matcher prevG cost r fuelPC f k = some (g, p, k2) →
      P ⟨g, p⟩) :
    ∀ (f : ℕ) (chain : List Glink) (cost k : ℕ) (chainF : List Glink)
      (costF kF : ℕ),
    buildLoop cfg matcher r fuelPC f chain cost k = some (chainF, costF, kF) →
    ∃ suffix, chainF = chain ++ suffix ∧ ∀ gl ∈ suffix, P gl := by
  intro f
  induction f with
  | zero =>
    intro chain cost k chainF costF kF h
    simp [buildLoop] at h
  | succ m ih =>
    intro chain cost k chainF costF kF h
    unfold buildLoop at h
    split at h
    · rename_i hlt
      cases hng : nextGlink cfg matcher (chain.getLastD dfltGlink).graph cost
          r fuelPC fuelPC k with
      | none =>
        rw [hng] at h
        simp at h
      | some out =>
        obtain ⟨g2, p2, k2⟩ := out
        rw [hng] at h
        simp only at h
        obtain ⟨suffix2, hch, hP⟩ := ih _ _ _ _ _ _ h
        refine ⟨Glink.mk g2 p2 :: suffix2, ?_, ?_⟩
        · rw [hch]
          simp
        · intro gl hgl
          rcases List.mem_cons.1 hgl with hgl | hgl
          · exact hgl ▸ hstep _ _ _ _ _ _ _ hng
          · exact hP gl hgl
    · rename_i hge
      have hc : chain = chainF := by
        injection h with h1
        exact congrArg (fun t => t.1) h1
      exact ⟨[], by rw [← hc, List.append_nil], by simp⟩

/-- C6: in the depth regime, every permutation a terminating build appends
after the head glink is a nonempty selection of AG edges whose transpositions
are pairwise vertex-disjoint (no node occurs twice). -/
theorem c6_depth_parallel_swaps (cfg : Config)
    (matcher : Graph → Graph → Bool) (r : RStream) (fuel : ℕ)
    (chain : List Glink) (cost k : ℕ)
    (hd : cfg.opt_type = OptType.depth) (hwf : cfg.archgraph.WF)
    (h : buildGlinkChain cfg matcher r fuel = some (chain, cost, k)) :
    ∀ gl ∈ chain.drop 1, gl.perm.items ≠ [] ∧
      (flatNodes gl.perm.items).Nodup ∧
      ∀ e ∈ gl.perm.items, e ∈ cfg.archgraph.edges := by
  unfold buildGlinkChain at h
  split at h
  · rename_i h0
    have hc : chain = [Glink.mk (randomSubgraph cfg r 0).1
        (permutationRandom cfg.archgraph.nodeList r
          (randomSubgraph cfg r 0).2).1] := by
      injection h with h1
      exact (congrArg (fun t => t.1) h1).symm
    rw [hc]
    simp
  · obtain ⟨suffix, hch, hP⟩ := buildLoop_suffix cfg matcher r fuel
      (fun gl => gl.perm.items ≠ [] ∧ (flatNodes gl.perm.items).Nodup ∧
        ∀ e ∈ gl.perm.items, e ∈ cfg.archgraph.edges)
      (fun prevG cost f k g p k2 hng =>
        nextGlink_depth_spec cfg matcher prevG cost r fuel hd hwf f k g p k2
          hng)
      fuel _ 0 _ chain cost k h
    rw [hch]
    intro gl hgl
    exact hP gl (by simpa using hgl)

/-- The 3-node path architecture graph 0-1-2 used by the concrete
witnesses. -/
def agPath3 : Graph :=
  ⟨{0, 1, 2}, {(0, 1), (1, 2)}⟩

/-- An opt1 configuration with target cost 1 on the path graph. -/
def cfg1 : Config :=
  ⟨.opt1, 1, agPath3, 5, 3 / 2⟩

/-- A depth configuration with target cost 1 on the path graph. -/
def cfgD : Config :=
  ⟨.depth, 1, agPath3, 5, 3 / 2⟩

/-- A concrete randomness stream. -/
def r0 : RStream :=
  ⟨fun _ => 0, fun _ => 1⟩

/-- A concrete randomness stream steering the depth-regime witness run. -/
def rD : RStream :=
  ⟨fun k => if k ≥ 10 then 1 else 0, fun _ => 1⟩

/-- The chain both witness runs construct. -/
def chainLit : List Glink :=
  [⟨⟨{0, 1}, {(0, 1)}⟩, ⟨.map, [(0, 0), (1, 1), (2, 2)]⟩⟩,
   ⟨⟨{0, 1}, {(0, 1)}⟩, ⟨.swap, [(1, 2)]⟩⟩]

/-- C1 witness: a terminating opt1 build with target cost 1 whose returned
cost equals the target. -/
theorem c1_witness :
    buildGlinkChain cfg1 embedsInto r0 6 = some (chainLit, 1, 11) ∧
      (1 : ℕ) = cfg1.target_cost :=
  ⟨by decide,
    c1_build_glink_chain_cost cfg1 embedsInto r0 6 chainLit 1 11 (by decide)⟩

/-- C6 witness: a terminating depth build whose single non-head glink has a
nonempty, pairwise-disjoint permutation made of AG edges. -/
theorem c6_witness :
    buildGlinkChain cfgD embedsInto rD 8 = some (chainLit, 1, 13) ∧
      ∀ gl ∈ chainLit.drop 1, gl.perm.items ≠ [] ∧
        (flatNodes gl.perm.items).Nodup ∧
        ∀ e ∈ gl.perm.items, e ∈ cfgD.archgraph.edges :=
  ⟨by decide,
    c6_depth_parallel_swaps cfgD embedsInto rD 8 chainLit 1 13 rfl
      ⟨by decide, by decide⟩ (by decide)⟩

/-- The gate alphabet: the one-qubit label (HGate), the two-qubit label
(CXGate), the SWAP the router inserts, and the barrier directive.  Gate
arguments are physical qubit indices. -/
inductive Gate where
  | one (q : ℕ)
  | two (a b : ℕ)
  | swap (a b : ℕ)
  | barrier
deriving DecidableEq

instance [DecidableEq ε] [DecidableEq α] : DecidableEq (Except ε α) :=
  fun a b =>
    match a, b with
    | .ok x, .ok y =>
      if h : x = y then isTrue (by rw [h])
      else isFalse (fun hc => h (by injection hc))
    | .error x, .error y =>
      if h : x = y then isTrue (by rw [h])
      else isFalse (fun hc => h (by injection hc))
    | .ok x, .error y => isFalse (fun hc => Except.noConfusion hc)
    | .error x, .ok y => isFalse (fun hc => Except.noConfusion hc)

/-- QuantumCircuit.size(): the number of instructions, directives (the
barrier) excluded by the default filter. -/
def circSize (c : List Gate) : ℕ :=
  (c.filter (fun g => match g with | .barrier => false | _ => true)).length

/-- The qubits an instruction touches (a barrier spans the whole
register). -/
def gateQubits (nq : ℕ) (g : Gate) : List ℕ :=
  match g with
  | .one q => [q]
  | .two a b => [a, b]
  | .swap a b => [a, b]
  | .barrier => List.range nq

/-- One instruction of QuantumCircuit.depth(): read the maximum level among
the touched qubits, add one unless the instruction is filtered out (a
directive), and write the new level back to every touched qubit. -/
def depthStep (nq : ℕ) (levels : List ℕ) (g : Gate) : List ℕ :=
  (List.range levels.length).map (fun i =>
    if i ∈ gateQubits nq g then
      (match g with
        | .barrier => (gateQubits nq g).foldl
            (fun acc q => max acc (levels.getD q 0)) 0
        | _ => (gateQubits nq g).foldl
            (fun acc q => max acc (levels.getD q 0)) 0 + 1)
    else levels.getD i 0)

/-- QuantumCircuit.depth() on nq qubits. -/
def circDepth (nq : ℕ) (c : List Gate) : ℕ :=
  (c.foldl (depthStep nq) (List.replicate nq 0)).foldl max 0

/-- The front-gate block of one glink in QUEKNO.build_circuit: one two-qubit
gate per AG edge whose pair of endpoint positions differs between the
pre-permutation and post-permutation layouts. -/
def frontGates (ag : Graph) (original permuted : List ℕ) : List (ℕ × ℕ) :=
  ag.edgeList.filter (fun e =>
    decide (({original.indexOf e.1, original.indexOf e.2} : Finset ℕ) ≠
      {permuted.indexOf e.1, permuted.indexOf e.2}))

/-- Graph.random_edges with include_all: error when fewer draws than edges
are requested, else a shuffle of all edges followed by draws with
replacement. -/
def randomEdges (g : Graph) (n : ℕ) (r : RStream) (k : ℕ) :
    Except String (List (ℕ × ℕ) × ℕ) :=
  if n < g.numEdges then
    .error "cannot ensure every edge is included with given num_edges"
  else
    .ok ((rSample r k g.edgeList g.numEdges).1 ++
        (rChoices r (0, 0) g.edgeList (n - g.numEdges)
          (rSample r k g.edgeList g.numEdges).2).1,
      (rChoices r (0, 0) g.edgeList (n - g.numEdges)
        (rSample r k g.edgeList g.numEdges).2).2)

/-- The per-glink body of QUEKNO.build_circuit: apply the permutation to the
current layout (failing on an identity permutation), emit the front gates,
then the shuffled mix of random back two-qubit and one-qubit gates, all
indexed through the permuted layout. -/
def buildCircuitLoop (cfg : Config) (addBarriers : Bool) (r : RStream) :
    List Glink → List ℕ → List Gate → ℕ → Except String (List Gate × ℕ)
  | [], _, acc, k => .ok (acc, k)
  | gl :: rest, original, acc, k =>
    match gl.perm.apply original with
    | none => .error "key error"
    | some permuted =>
      if permuted = original then .error "identity permutation"
      else
        match randomEdges gl.graph
            ((Int.ceil ((gl.graph.numEdges : ℚ) *
              (1 + RAND_EDGES_VAR * (rInt1to4 r k).1))).toNat)
            r (rInt1to4 r k).2 with
        | .error e => .error e
        | .ok (back2, k2) =>
          buildCircuitLoop cfg addBarriers r rest permuted
            (acc ++
              (frontGates cfg.archgraph original permuted).map (fun e =>
                Gate.two (permuted.indexOf e.1) (permuted.indexOf e.2)) ++
              (rShuffle r (rChoices r 0 gl.graph.nodeList
                  ((Int.ceil (((frontGates cfg.archgraph original
                    permuted).length + back2.length : ℚ) *
                    cfg.qbg_ratio)).toNat) k2).2
                (back2.map Sum.inl ++
                  ((rChoices r 0 gl.graph.nodeList
                    ((Int.ceil (((frontGates cfg.archgraph original
                      permuted).length + back2.length : ℚ) *
                      cfg.qbg_ratio)).toNat) k2).1.map Sum.inr))).1.map
                (fun s => match s with
                  | Sum.inl e => Gate.two (permuted.indexOf e.1)
                      (permuted.indexOf e.2)
                  | Sum.inr n => Gate.one (permuted.indexOf n)) ++
              (if addBarriers ∧ rest ≠ [] then [Gate.barrier] else []))
            (rShuffle r (rChoices r 0 gl.graph.nodeList
                ((Int.ceil (((frontGates cfg.archgraph original
                  permuted).length + back2.length : ℚ) *
                  cfg.qbg_ratio)).toNat) k2).2
              (back2.map Sum.inl ++
                ((rChoices r 0 gl.graph.nodeList
                  ((Int.ceil (((frontGates cfg.archgraph original
                    permuted).length + back2.length : ℚ) *
                    cfg.qbg_ratio)).toNat) k2).1.map Sum.inr))).2

/-- QUEKNO.build_circuit: start from the canonical node order and process
the chain glink by glink. -/
def buildCircuit (cfg : Config) (chain : List Glink) (addBarriers : Bool)
    (r : RStream) (k : ℕ) : Except String (List Gate × ℕ) :=
  buildCircuitLoop cfg addBarriers r chain cfg.archgraph.nodeList [] k

/-- The retry loop of QUEKNO.route for one two-qubit gate: while the two
mapped endpoints are not adjacent, advance to the next glink (failing when
none is left), emit its swaps on the current layout positions, update the
layout and the true cost, and retry the same gate. -/
def resolveTwo (cfg : Config) (a b : ℕ) :
    List Glink → List ℕ → List Gate → ℕ →
      Except String (List Glink × List ℕ × List Gate × ℕ)
  | glinks, layout, acc, tc =>
    if cfg.archgraph.hasEdge (layout.getD a 0) (layout.getD b 0) then
      .ok (glinks, layout, acc ++ [Gate.two a b], tc)
    else
      match glinks with
      | [] => .error "too few glinks"
      | gl :: rest =>
        match gl.perm.apply layout with
        | none => .error "key error"
        | some layout2 =>
          resolveTwo cfg a b rest layout2
            (acc ++ gl.perm.items.map (fun sd =>
              Gate.swap (layout.indexOf sd.1) (layout.indexOf sd.2)))
            (tc + (if cfg.opt_type = OptType.depth then 1 else gl.perm.len))

/-- The gate loop of QUEKNO.route: barriers and one-qubit gates are copied
through, two-qubit gates go through the retry loop, and any other gate is
unknown. -/
def routeGates (cfg : Config) :
    List Gate → List Glink → List ℕ → List Gate → ℕ →
      Except String (List Glink × List ℕ × List Gate × ℕ)
  | [], glinks, layout, acc, tc => .ok (glinks, layout, acc, tc)
  | g :: rest, glinks, layout, acc, tc =>
    match g with
    | .barrier => routeGates cfg rest glinks layout (acc ++ [.barrier]) tc
    | .one q => routeGates cfg rest glinks layout (acc ++ [.one q]) tc
    | .two a b =>
      match resolveTwo cfg a b glinks layout [] tc with
      | .error e => .error e
      | .ok (glinks2, layout2, emitted, tc2) =>
        routeGates cfg rest glinks2 layout2 (acc ++ emitted) tc2
    | .swap _ _ => .error "unknown gate"

/-- QUEKNO.route: initialise the layout from the head permutation, route
every gate, then run the final checks — a fatal error when unvisited glinks
remain or the predicted cost differs from the true cost, and only a warning
(collected in the returned list) when the gate-count or depth delta of the
routed circuit differs from the true cost. -/
def route (cfg : Config) (circuit : List Gate) (chain : List Glink)
    (predCost : ℕ) : Except String (List Gate × ℕ × List String) :=
  match chain with
  | [] => .error "empty chain"
  | head :: restGlinks =>
    match head.perm.apply cfg.archgraph.nodeList with
    | none => .error "key error"
    | some layout0 =>
      match routeGates cfg circuit restGlinks layout0 [] 0 with
      | .error e => .error e
      | .ok (glinksLeft, _, routed, trueCost) =>
        if glinksLeft ≠ [] then .error "too many glinks"
        else if predCost ≠ trueCost then .error "pred and true cost differ"
        else
          .ok (routed, trueCost,
            (if cfg.opt_type ≠ OptType.depth ∧
                (circSize routed : ℤ) - circSize circuit ≠ (trueCost : ℤ)
              then ["swap_cost differs from true_cost"] else []) ++
            (if cfg.opt_type = OptType.depth ∧
                (circDepth cfg.archgraph.numNodes routed : ℤ) -
                  circDepth cfg.archgraph.numNodes circuit ≠ (trueCost : ℤ)
              then ["depth_cost differs from true_cost"] else []))

/-- QUEKNO.run: build the chain, assemble the circuit, route it against the
predicted cost, and return the circuit pair (the metrics dictionary and its
wall-clock entry are outside the claims). -/
def run (cfg : Config) (matcher : Graph → Graph → Bool) (addBarriers : Bool)
    (r : RStream) (fuel : ℕ) :
    Option (Except String (List Gate × List Gate)) :=
  match buildGlinkChain cfg matcher r fuel with
  | none => none
  | some (chain, cost, k) =>
    some (match buildCircuit cfg chain addBarriers r k with
      | .error e => .error e
      | .ok (circuit, _) =>
        match route cfg circuit chain cost with
        | .error e => .error e
        | .ok (routed, _, _) => .ok (circuit, routed))

/-- The 4-node path architecture graph 0-1-2-3. -/
def agPath4 : Graph :=
  ⟨{0, 1, 2, 3}, {(0, 1), (1, 2), (2, 3)}⟩

/-- A depth configuration with target cost 1 on the 4-node path. -/
def cfgD4 : Config :=
  ⟨.depth, 1, agPath4, 5, 3 / 2⟩

/-- A two-glink chain whose single non-head glink swaps the adjacent pair
2-3. -/
def chainC2 : List Glink :=
  [⟨⟨{0, 1}, {(0, 1)}⟩, ⟨.map, []⟩⟩, ⟨⟨{2, 3}, {(2, 3)}⟩, ⟨.swap, [(2, 3)]⟩⟩]

/-- An input circuit whose second gate forces the swap; the swap fits into
the first layer, so routing does not increase the depth. -/
def circC2 : List Gate :=
  [.two 0 1, .two 1 3]

/-- C2, counterexample to the claim as stated: a depth-regime routing whose
depth delta (0) differs from the true cost (1) does NOT fail — route
returns the routed circuit and only collects a warning.  The inserted swap
on the idle qubits 2, 3 shares a layer with the first gate, so both the
input and the routed circuit have depth 2. -/
theorem c2_counterexample :
    route cfgD4 circC2 chainC2 1 =
      .ok ([.two 0 1, .swap 2 3, .two 1 3], 1,
        ["depth_cost differs from true_cost"]) ∧
    (circDepth 4 [.two 0 1, .swap 2 3, .two 1 3] : ℤ) -
      (circDepth 4 circC2 : ℤ) ≠ (1 : ℤ) := by
  decide

/-- C2 (amended): when route returns at all, the predicted cost equals the
accumulated true cost (a mismatch there is a fatal error), while a
gate-count or depth delta differing from the true cost only produces a
warning in the returned warning list — route still succeeds. -/
theorem c2_route_mismatch_only_warns (cfg : Config) (circuit : List Gate)
    (chain : List Glink) (predCost : ℕ) (out : List Gate) (tc : ℕ)
    (warns : List String)
    (h : route cfg circuit chain predCost = .ok (out, tc, warns)) :
    predCost = tc ∧
    ((cfg.opt_type ≠ OptType.depth ∧
        (circSize out : ℤ) - (circSize circuit : ℤ) ≠ (tc : ℤ)) →
      warns ≠ []) ∧
    ((cfg.opt_type = OptType.depth ∧
        (circDepth cfg.archgraph.numNodes out : ℤ) -
          (circDepth cfg.archgraph.numNodes circuit : ℤ) ≠ (tc : ℤ)) →
      warns ≠ []) := by
  unfold route at h
  cases chain with
  | nil => exact absurd h (by simp)
  | cons head restGlinks =>
    simp only at h
    cases happ : head.perm.apply cfg.archgraph.nodeList with
    | none =>
      rw [happ] at h
      exact absurd h (by simp)
    | some layout0 =>
      rw [happ] at h
      simp only at h
      cases hrg : routeGates cfg circuit restGlinks layout0 [] 0 with
      | error e =>
        rw [hrg] at h
        exact absurd h (by simp)
      | ok res =>
        obtain ⟨glinksLeft, layoutF, routed, trueCost⟩ := res
        rw [hrg] at h
        simp only at h
        split at h
        · exact absurd h (by simp)
        · split at h
          · exact absurd h (by simp)
          · rename_i hleft hpred
            have hout : routed = out := by
              injection h with h1
              exact congrArg (fun t => t.1) h1
            have htc : trueCost = tc := by
              injection h with h1
              exact congrArg (fun t => t.2.1) h1
            have hw : ((if cfg.opt_type ≠ OptType.depth ∧
                  (circSize routed : ℤ) - circSize circuit ≠ (trueCost : ℤ)
                then ["swap_cost differs from true_cost"] else []) ++
                (if cfg.opt_type = OptType.depth ∧
                  (circDepth cfg.archgraph.numNodes routed : ℤ) -
                    circDepth cfg.archgraph.numNodes circuit ≠ (trueCost : ℤ)
                then ["depth_cost differs from true_cost"] else [])) =
                warns := by
              injection h with h1
              exact congrArg (fun t => t.2.2) h1
            refine ⟨by omega, ?_, ?_⟩
            · rintro ⟨hg, hdelta⟩
              rw [← hw]
              rw [if_pos ⟨hg, by rw [hout, htc]; exact hdelta⟩]
              simp
            · rintro ⟨hg, hdelta⟩
              have h2 : (if cfg.opt_type = OptType.depth ∧
                  (circDepth cfg.archgraph.numNodes routed : ℤ) -
                    circDepth cfg.archgraph.numNodes circuit ≠ (trueCost : ℤ)
                  then ["depth_cost differs from true_cost"] else []) =
                  ["depth_cost differs from true_cost"] :=
                if_pos ⟨hg, by rw [hout, htc]; exact hdelta⟩
              rw [← hw, h2]
              simp

/-- A two-glink chain for the C2 witness in the gate regime. -/
def chainW : List Glink :=
  [⟨⟨{0, 1}, {(0, 1)}⟩, ⟨.map, []⟩⟩, ⟨⟨{1, 2}, {(1, 2)}⟩, ⟨.swap, [(1, 2)]⟩⟩]

/-- A one-gate circuit whose gate forces the swap of chainW. -/
def circW : List Gate :=
  [.two 0 2]

/-- C2 witness: the amended statement evaluated on a successful gate-regime
routing (the predicted cost equals the true cost and no warning fires). -/
theorem c2_witness :
    route cfg1 circW chainW 1 = .ok ([.swap 1 2, .two 0 2], 1, []) ∧
      ((1 : ℕ) = 1 ∧
      ((cfg1.opt_type ≠ OptType.depth ∧
          (circSize [Gate.swap 1 2, Gate.two 0 2] : ℤ) -
            (circSize circW : ℤ) ≠ (1 : ℤ)) → ([] : List String) ≠ []) ∧
      ((cfg1.opt_type = OptType.depth ∧
          (circDepth cfg1.archgraph.numNodes [Gate.swap 1 2, Gate.two 0 2] : ℤ) -
            (circDepth cfg1.archgraph.numNodes circW : ℤ) ≠ (1 : ℤ)) →
        ([] : List String) ≠ [])) :=
  ⟨by decide,
    c2_route_mismatch_only_warns cfg1 circW chainW 1
      [Gate.swap 1 2, Gate.two 0 2] 1 [] (by decide)⟩

/-- C9: the whole build — chain construction, circuit assembly and routing —
is a pure function of the configuration, the matcher and the randomness
stream: two runs from the same stream (the same seed) return identical
circuit and routed-circuit gate sequences. -/
theorem c9_run_deterministic (cfg : Config) (matcher : Graph → Graph → Bool)
    (addBarriers : Bool) (fuel : ℕ) (r1 r2 : RStream) (h : r1 = r2) :
    run cfg matcher addBarriers r1 fuel = run cfg matcher addBarriers r2 fuel := by
  rw [h]

/-- C9 witness: the determinism statement evaluated at a concrete seed. -/
theorem c9_witness :
    run cfg1 embedsInto false r0 6 = run cfg1 embedsInto false r0 6 :=
  c9_run_deterministic cfg1 embedsInto false 6 r0 r0 rfl

theorem applySwap_fold_mem : ∀ (items : List (ℕ × ℕ)) (orig cur out : List ℕ),
    (items.foldlM (fun c sd => do
        let i ← posOf orig sd.1
        let j ← posOf orig sd.2
        pure (swapAt c i j)) cur : Option (List ℕ)) = some out →
    ∀ sd ∈ items, sd.1 ∈ orig ∧ sd.2 ∈ orig := by
  intro items
  induction items with
  | nil =>
    intro orig cur out h sd hsd
    simp at hsd
  | cons sd0 rest ih =>
    intro orig cur out h sd hsd
    simp only [List.foldlM] at h
    cases hstep : (do
        let i ← posOf orig sd0.1
        let j ← posOf orig sd0.2
        pure (swapAt cur i j) : Option (List ℕ)) with
    | none =>
      rw [hstep] at h
      simp at h
    | some c2 =>
      rw [hstep] at h
      simp only [Option.bind_eq_bind, Option.some_bind] at h
      obtain ⟨i, j, hi, hj, hc⟩ := applySwap_step_some hstep
      rcases List.mem_cons.1 hsd with rfl | hsd2
      · exact ⟨(posOf_eq_some hi).1, (posOf_eq_some hj).1⟩
      · exact ih orig c2 out h sd hsd2

theorem apply_of_swap_mode {p : Permutation} (hmode : p.mode = PMode.swap)
    (l : List ℕ) : p.apply l = p.applySwap l := by
  obtain ⟨m, items⟩ := p
  simp only at hmode
  subst hmode
  rfl

/-- Reachability along edges; connectivity of the architecture graph. -/
inductive Reach (g : Graph) : ℕ → ℕ → Prop where
  | refl (u : ℕ) : Reach g u u
  | step {u v w : ℕ} : Reach g u v → nedge v w ∈ g.edges → Reach g u w

/-- A connected graph: every node reaches every node. -/
def agConnected (g : Graph) : Prop :=
  ∀ u ∈ g.nodes, ∀ v ∈ g.nodes, Reach g u v

theorem reach_one (g : Graph) (u v : ℕ) (h : nedge u v ∈ g.edges) :
    Reach g u v :=
  Reach.step (Reach.refl u) h

theorem reach_two (g : Graph) (u v w : ℕ) (h1 : nedge u v ∈ g.edges)
    (h2 : nedge v w ∈ g.edges) : Reach g u w :=
  Reach.step (Reach.step (Reach.refl u) h1) h2

theorem list_eq_of_indexOf_eq {l l2 : List ℕ} (hnd : l.Nodup)
    (hp : List.Perm l2 l) (h : ∀ x ∈ l, l2.indexOf x = l.indexOf x) :
    l2 = l := by
  apply List.ext_getElem hp.length_eq
  intro i h1 h2
  have hmem : l[i] ∈ l := List.getElem_mem h2
  have hio : l.indexOf l[i] = i := List.indexOf_getElem hnd i h2
  have h3 : l2.indexOf l[i] = i := by rw [h _ hmem, hio]
  have hlt : l2.indexOf l[i] < l2.length :=
    List.indexOf_lt_length.2 (hp.mem_iff.2 hmem)
  have h4 := List.getElem_indexOf hlt
  simp only [h3] at h4
  exact h4

theorem hpres_nedge {ag : Graph} {original permuted : List ℕ}
    (hpres : ∀ e ∈ ag.edges,
      ({original.indexOf e.1, original.indexOf e.2} : Finset ℕ) =
        {permuted.indexOf e.1, permuted.indexOf e.2})
    {a b : ℕ} (hab : nedge a b ∈ ag.edges) :
    ({original.indexOf a, original.indexOf b} : Finset ℕ) =
      {permuted.indexOf a, permuted.indexOf b} := by
  have h := hpres (nedge a b) hab
  rcases nedge_comps a b with ⟨h1, h2⟩ | ⟨h1, h2⟩
  · rwa [h1, h2] at h
  · rw [h1, h2] at h
    rw [Finset.pair_comm (original.indexOf a) (original.indexOf b),
      Finset.pair_comm (permuted.indexOf a) (permuted.indexOf b)]
    exact h

theorem K2_wf {x y : ℕ} (hxy : x ≠ y) : (Graph.mk {x, y} {nedge x y}).WF := by
  constructor
  · intro e he
    have he' : e = nedge x y := Finset.mem_singleton.1 he
    subst he'
    exact nedge_fst_lt_snd hxy
  · intro e he
    have he' : e = nedge x y := Finset.mem_singleton.1 he
    subst he'
    constructor
    · show (nedge x y).1 ∈ ({x, y} : Finset ℕ)
      rcases nedge_comps x y with ⟨h1, -⟩ | ⟨h1, -⟩ <;> rw [h1] <;> simp
    · show (nedge x y).2 ∈ ({x, y} : Finset ℕ)
      rcases nedge_comps x y with ⟨-, h2⟩ | ⟨-, h2⟩ <;> rw [h2] <;> simp

theorem pswapNode_pair {x y u v : ℕ} (hxy : x ≠ y)
    (hu : u ∈ ({x, y} : Finset ℕ)) (hv : v ∈ ({x, y} : Finset ℕ)) :
    nedge (pswapNode u v x) (pswapNode u v y) = nedge x y := by
  have ha : pswapNode u v x ∈ ({x, y} : Finset ℕ) :=
    pswapNode_mem hu hv (Finset.mem_insert_self x {y})
  have hb : pswapNode u v y ∈ ({x, y} : Finset ℕ) :=
    pswapNode_mem hu hv (by simp)
  have hne : pswapNode u v x ≠ pswapNode u v y := by
    intro h
    have h2 := congrArg (pswapNode u v) h
    rw [pswapNode_invol, pswapNode_invol] at h2
    exact hxy h2
  rcases Finset.mem_insert.1 ha with h1 | h1 <;>
    rcases Finset.mem_insert.1 hb with h2 | h2
  · exact absurd (h1.trans h2.symm) hne
  · rw [h1, Finset.mem_singleton.1 h2]
  · rw [Finset.mem_singleton.1 h1, h2]
    exact nedge_comm y x
  · exact absurd ((Finset.mem_singleton.1 h1).trans
      (Finset.mem_singleton.1 h2).symm) hne

theorem pswapEdge_K2 {x y u v : ℕ} (hxy : x ≠ y)
    (hu : u ∈ ({x, y} : Finset ℕ)) (hv : v ∈ ({x, y} : Finset ℕ)) :
    pswapEdge u v (nedge x y) = nedge x y := by
  unfold pswapEdge
  rcases nedge_comps x y with ⟨h1, h2⟩ | ⟨h1, h2⟩
  · rw [h1, h2]
    exact pswapNode_pair hxy hu hv
  · rw [h1, h2, nedge_comm]
    exact pswapNode_pair hxy hu hv

theorem permute_K2 {x y u v : ℕ} (hxy : x ≠ y)
    (hu : u ∈ ({x, y} : Finset ℕ)) (hv : v ∈ ({x, y} : Finset ℕ)) :
    (Graph.mk {x, y} {nedge x y}).permute u v = Graph.mk {x, y} {nedge x y} := by
  have hwf := K2_wf hxy
  have hu' : u ∈ (Graph.mk {x, y} {nedge x y}).nodes := hu
  have hv' : v ∈ (Graph.mk {x, y} {nedge x y}).nodes := hv
  rw [permute_of_mem hu']
  apply Graph.eq_of
  · exact permuteCore_nodes hu' hv'
  · ext e
    rw [mem_permuteCore_edges hwf hu' hv']
    show _ ↔ e ∈ ({nedge x y} : Finset (ℕ × ℕ))
    simp only [Finset.mem_singleton]
    constructor
    · rintro ⟨hlt, hsw⟩
      have h2 := congrArg (pswapEdge u v) hsw
      rw [pswapEdge_invol, pswapEdge_K2 hxy hu hv] at h2
      rw [← h2, nedge_self_eq hlt]
    · intro he
      subst he
      exact ⟨nedge_fst_lt_snd hxy, pswapEdge_K2 hxy hu hv⟩

theorem permGraphOf_K2 {x y : ℕ} (hxy : x ≠ y) :
    ∀ (items : List (ℕ × ℕ)),
      (∀ sd ∈ items, sd.1 ∈ ({x, y} : Finset ℕ) ∧ sd.2 ∈ ({x, y} : Finset ℕ)) →
      permGraphOf (Graph.mk {x, y} {nedge x y}) items =
        Graph.mk {x, y} {nedge x y} := by
  intro items
  induction items with
  | nil => intro _; rfl
  | cons sd rest ih =>
    intro hmem
    unfold permGraphOf
    rw [List.foldl_cons]
    have h1 := hmem sd (List.mem_cons_self sd rest)
    rw [permute_K2 hxy h1.1 h1.2]
    exact ih (fun e he => hmem e (List.mem_cons_of_mem sd he))

/-- C5: over a connected well-formed architecture graph, a glink whose
subgraph is a nonempty edge-induced subgraph of AG and which satisfies the
strong-glink predicate has a non-empty front-gate block whenever the layout
is actually displaced (build_circuit only emits the block after its
non-identity check `permuted != original` passes): at least one edge of AG
changes its pair of endpoint positions between the two layouts. -/
theorem c5_front_gates_nonempty
    (matcher : Graph → Graph → Bool) (ag prev sub : Graph)
    (perm : Permutation) (original permuted : List ℕ)
    (hwf : ag.WF) (hconn : agConnected ag)
    (hnodup : original.Nodup) (hset : original.toFinset = ag.nodes)
    (hmode : perm.mode = PMode.swap)
    (happly : perm.apply original = some permuted)
    (hnonid : permuted ≠ original)
    (hsubE : sub.edges ⊆ ag.edges) (hsubNE : sub.edges.Nonempty)
    (hsubN : sub.nodes = sub.edges.biUnion (fun e => {e.1, e.2}))
    (hstrong : is_strong_glink matcher ag prev sub perm = true) :
    frontGates ag original permuted ≠ [] := by
  intro hempty
  unfold frontGates at hempty
  have hpres : ∀ e ∈ ag.edges,
      ({original.indexOf e.1, original.indexOf e.2} : Finset ℕ) =
        {permuted.indexOf e.1, permuted.indexOf e.2} := by
    intro e he
    have h1 := List.filter_eq_nil_iff.1 hempty e (mem_edgeList.2 he)
    simpa using h1
  have hnodesiff : ∀ z, z ∈ ag.nodes ↔ z ∈ original := by
    intro z
    rw [← hset, List.mem_toFinset]
  rw [apply_of_swap_mode hmode] at happly
  unfold Permutation.applySwap at happly
  have hperm : List.Perm permuted original :=
    applySwap_fold_perm perm.items original original permuted
      (List.Perm.refl original) happly
  have hmems := applySwap_fold_mem perm.items original original permuted happly
  have hlen := hperm.length_eq
  have hmoved : ∃ x ∈ original, permuted.indexOf x ≠ original.indexOf x := by
    by_contra hall
    push_neg at hall
    exact hnonid (list_eq_of_indexOf_eq hnodup hperm hall)
  obtain ⟨x, hxo, hxm⟩ := hmoved
  have hlen2 : 2 ≤ original.length := by
    have i1 : original.indexOf x < original.length := List.indexOf_lt_length.2 hxo
    have i2 : permuted.indexOf x < permuted.length :=
      List.indexOf_lt_length.2 (hperm.mem_iff.2 hxo)
    omega
  have hz : ∃ z ∈ original, z ≠ x := by
    by_contra hall
    push_neg at hall
    have hsub2 : original.toFinset ⊆ {x} := by
      intro w hw2
      rw [List.mem_toFinset] at hw2
      rw [Finset.mem_singleton]
      exact hall w hw2
    have hcard : original.toFinset.card ≤ 1 := by
      simpa using Finset.card_le_card hsub2
    rw [List.toFinset_card_of_nodup hnodup] at hcard
    omega
  obtain ⟨z, hzo, hzx⟩ := hz
  have hxag : x ∈ ag.nodes := (hnodesiff x).2 hxo
  have hzag : z ∈ ag.nodes := (hnodesiff z).2 hzo
  have hxnbr : ∃ n, nedge x n ∈ ag.edges := by
    have key : ∀ a b, Reach ag a b → a ≠ b → ∃ n, nedge a n ∈ ag.edges := by
      intro a b hw
      induction hw with
      | refl => exact fun h => absurd rfl h
      | @step v w hr he ih =>
        intro hne
        by_cases hav : a = v
        · subst hav
          exact ⟨w, he⟩
        · exact ih hav
    exact key x z (hconn x hxag z hzag) (Ne.symm hzx)
  obtain ⟨y, hxyE⟩ := hxnbr
  have hxy : x ≠ y := by
    intro h
    subst h
    exact hwf.no_selfloop x hxyE
  have hstepG : ∀ w n, permuted.indexOf w ≠ original.indexOf w →
      nedge w n ∈ ag.edges → permuted.indexOf w = original.indexOf n := by
    intro w n hwm hwn
    have hp := hpres_nedge hpres hwn
    have hmem : permuted.indexOf w ∈
        ({original.indexOf w, original.indexOf n} : Finset ℕ) := by
      rw [hp]
      exact Finset.mem_insert_self _ _
    rcases Finset.mem_insert.1 hmem with h | h
    · exact absurd h hwm
    · exact Finset.mem_singleton.1 h
  have hnbrO : ∀ a b, nedge a b ∈ ag.edges → b ∈ original := by
    intro a b hab
    have hep := hwf.endpoints _ hab
    rcases nedge_comps a b with ⟨-, h2⟩ | ⟨h1, -⟩
    · exact (hnodesiff b).1 (h2 ▸ hep.2)
    · exact (hnodesiff b).1 (h1 ▸ hep.1)
  have huniqG : ∀ w n m, permuted.indexOf w ≠ original.indexOf w →
      nedge w n ∈ ag.edges → nedge w m ∈ ag.edges → n = m := by
    intro w n m hwm hn hm
    have h1 := hstepG w n hwm hn
    have h2 := hstepG w m hwm hm
    exact (List.indexOf_inj (hnbrO w n hn) (hnbrO w m hm)).1 (h1.symm.trans h2)
  have hyO : y ∈ original := hnbrO x y hxyE
  have hiy : permuted.indexOf y = original.indexOf x := by
    have hp := hpres_nedge hpres hxyE
    have hmem : original.indexOf x ∈
        ({permuted.indexOf x, permuted.indexOf y} : Finset ℕ) := by
      rw [← hp]
      exact Finset.mem_insert_self _ _
    rcases Finset.mem_insert.1 hmem with h | h
    · exact absurd h.symm hxm
    · exact (Finset.mem_singleton.1 h).symm
  have hym : permuted.indexOf y ≠ original.indexOf y := by
    rw [hiy]
    intro h
    exact hxy ((List.indexOf_inj hxo hyO).1 h)
  have hyx : nedge y x ∈ ag.edges := by
    rw [nedge_comm]
    exact hxyE
  have hreach2 : ∀ a b, Reach ag a b → a = x → b = x ∨ b = y := by
    intro a b hw
    induction hw with
    | refl => exact fun h => Or.inl h
    | @step v w hr he ih =>
      intro hu
      rcases ih hu with rfl | rfl
      · exact Or.inr (huniqG _ w y hxm he hxyE)
      · left
        exact huniqG _ w x hym he hyx
  have hyag : y ∈ ag.nodes := (hnodesiff y).2 hyO
  have hnodes_eq : ag.nodes = {x, y} := by
    ext w
    constructor
    · intro hwag
      rcases hreach2 x w (hconn x hxag w hwag) rfl with rfl | rfl
      · exact Finset.mem_insert_self _ _
      · exact Finset.mem_insert_of_mem (Finset.mem_singleton_self _)
    · intro hw
      rcases Finset.mem_insert.1 hw with rfl | hw1
      · exact hxag
      · rw [Finset.mem_singleton.1 hw1]
        exact hyag
  have hedges_eq : ag.edges = {nedge x y} := by
    ext e
    rw [Finset.mem_singleton]
    constructor
    · intro he
      have hep := hwf.endpoints e he
      have hnorm := hwf.norm e he
      rw [hnodes_eq] at hep
      obtain ⟨hep1, hep2⟩ := hep
      rcases Finset.mem_insert.1 hep1 with h1 | h1
      · rcases Finset.mem_insert.1 hep2 with h2 | h2
        · exfalso
          omega
        · have h2' := Finset.mem_singleton.1 h2
          have hxlt : x < y := by omega
          rw [nedge_self_eq hxlt]
          exact Prod.ext h1 h2'
      · have h1' := Finset.mem_singleton.1 h1
        rcases Finset.mem_insert.1 hep2 with h2 | h2
        · have hylt : y < x := by omega
          rw [nedge_comm, nedge_self_eq hylt]
          exact Prod.ext h1' h2
        · have h2' := Finset.mem_singleton.1 h2
          exfalso
          omega
    · intro he
      rw [he]
      exact hxyE
  have hsubedges : sub.edges = {nedge x y} := by
    rw [hedges_eq] at hsubE
    rcases Finset.subset_singleton_iff.1 hsubE with h | h
    · exact absurd h (Finset.nonempty_iff_ne_empty.1 hsubNE)
    · exact h
  have hsubnodes : sub.nodes = {x, y} := by
    rw [hsubN, hsubedges, Finset.singleton_biUnion]
    rcases nedge_comps x y with ⟨h1, h2⟩ | ⟨h1, h2⟩
    · rw [h1, h2]
    · rw [h1, h2]
      exact Finset.pair_comm y x
  have hsubK2 : sub = Graph.mk {x, y} {nedge x y} :=
    Graph.eq_of hsubnodes hsubedges
  have hne2 : permGraphOf sub perm.items ≠ sub := by
    intro hEq
    simp only [is_strong_glink] at hstrong
    rw [if_pos hEq] at hstrong
    exact Bool.false_ne_true hstrong
  apply hne2
  rw [hsubK2]
  apply permGraphOf_K2 hxy
  intro sd hsd
  have hm := hmems sd hsd
  constructor
  · have h1 := (hnodesiff sd.1).2 hm.1
    rwa [hnodes_eq] at h1
  · have h2 := (hnodesiff sd.2).2 hm.2
    rwa [hnodes_eq] at h2

theorem c5_witness :
    frontGates agPath3 [0, 1, 2] [0, 2, 1] ≠ [] := by
  apply c5_front_gates_nonempty embedsInto agPath3
    (Graph.mk {0, 1} {(0, 1)}) (Graph.mk {0, 1} {(0, 1)})
    (Permutation.mk PMode.swap [(1, 2)]) [0, 1, 2] [0, 2, 1]
  · exact ⟨by decide, by decide⟩
  · intro u hu v hv
    have hu' : u ∈ ({0, 1, 2} : Finset ℕ) := hu
    have hv' : v ∈ ({0, 1, 2} : Finset ℕ) := hv
    fin_cases hu' <;> fin_cases hv'
    · exact Reach.refl 0
    · exact reach_one _ 0 1 (by decide)
    · exact reach_two _ 0 1 2 (by decide) (by decide)
    · exact reach_one _ 1 0 (by decide)
    · exact Reach.refl 1
    · exact reach_one _ 1 2 (by decide)
    · exact reach_two _ 2 1 0 (by decide) (by decide)
    · exact reach_one _ 2 1 (by decide)
    · exact Reach.refl 2
  · decide
  · decide
  · rfl
  · decide
  · decide
  · decide
  · decide
  · decide
  · decide
